import Mathlib

/-!
Verification development for the BVH construction subsystem of lvr2
(`include/lvr2/geometry/BVH.tcc`).

The embedding uses exact rational arithmetic (`ℚ`) in place of `float`.
All comparisons, bucket assignments and bounding-box unions are therefore
the exact-arithmetic idealization of the floating-point source.  Unit-length
normalization (the `Normal` constructor, whose source is not under `src/`)
divides a vector by its Euclidean length; this is not rational-exact, so the
development is parameterized by an arbitrary function `u : V3 → V3` standing
for that normalization.  None of the verified properties depend on the
values `u` produces.

The classes `BoundingBox<BaseVecT>` and `Normal<T>` are declared in headers
that are not part of `src/`; they are modelled from the spec where needed,
as noted on the individual definitions.
-/

namespace BVH

/-- Three-dimensional vector over exact rationals, modelling `BaseVecT`
(float coordinates in the source). -/
structure V3 where
  x : ℚ
  y : ℚ
  z : ℚ
deriving DecidableEq, Repr

/-- Componentwise addition, modelling `operator+` of `BaseVecT`. -/
def vadd (a b : V3) : V3 := ⟨a.x + b.x, a.y + b.y, a.z + b.z⟩

/-- Componentwise subtraction, modelling `operator-` of `BaseVecT`. -/
def vsub (a b : V3) : V3 := ⟨a.x - b.x, a.y - b.y, a.z - b.z⟩

/-- Scalar multiple, modelling division of a vector by a scalar in the source
(`(p1 + p2 + p3) / 3.0f` is `vsmul (1/3) (...)`). -/
def vsmul (q : ℚ) (a : V3) : V3 := ⟨q * a.x, q * a.y, q * a.z⟩

/-- Cross product, modelling `BaseVecT::cross`. -/
def cross (a b : V3) : V3 :=
  ⟨a.y * b.z - a.z * b.y, a.z * b.x - a.x * b.z, a.x * b.y - a.y * b.x⟩

/-- Dot product, modelling `BaseVecT::dot`. -/
def dot (a b : V3) : ℚ := a.x * b.x + a.y * b.y + a.z * b.z

/-- Squared Euclidean length.  In the source, `length()` is the square root
of this; since `length v = 0 ↔ sqLen v = 0` and `length a < length b ↔
sqLen a < sqLen b` for real vectors, all comparisons of lengths in the
source are modelled by comparisons of squared lengths. -/
def sqLen (a : V3) : ℚ := dot a a

/-- Componentwise minimum. -/
def vmin (a b : V3) : V3 := ⟨min a.x b.x, min a.y b.y, min a.z b.z⟩

/-- Componentwise maximum. -/
def vmax (a b : V3) : V3 := ⟨max a.x b.x, max a.y b.y, max a.z b.z⟩

/-- Modelled from the spec: `BoundingBox<BaseVecT>` (its source is not under
`src/`) holds min/max corners, has an invalid/empty initial state (the lvr2
sentinel corners of a default-constructed box are unconstrained by the spec
and are modelled as the zero vector), and is mutated only by expansion with
a point or another box. -/
structure BBox where
  valid : Bool
  lo : V3
  hi : V3
deriving DecidableEq, Repr

/-- Modelled from the spec: a default-constructed, invalid bounding box. -/
def emptyBB : BBox := ⟨false, ⟨0, 0, 0⟩, ⟨0, 0, 0⟩⟩

/-- Modelled from the spec: `BoundingBox::expand` with a point. -/
def expandP (b : BBox) (p : V3) : BBox :=
  if b.valid then ⟨true, vmin b.lo p, vmax b.hi p⟩ else ⟨true, p, p⟩

/-- Modelled from the spec: `BoundingBox::expand` with another box
(union; an invalid argument leaves the receiver unchanged, matching the
sentinel-corner implementation for finite coordinates). -/
def expandB (b c : BBox) : BBox :=
  if c.valid then
    (if b.valid then ⟨true, vmin b.lo c.lo, vmax b.hi c.hi⟩ else c)
  else b

/-- Modelled from the spec: `BoundingBox::isValid`. -/
def isValid (b : BBox) : Bool := b.valid

/-- Modelled from the spec: `BoundingBox::getCentroid`, the midpoint of the
two corners. -/
def getCentroid (b : BBox) : V3 := vsmul (1/2) (vadd b.lo b.hi)

/-- Modelled from the spec: `BoundingBox::getXSize`. -/
def getXSize (b : BBox) : ℚ := b.hi.x - b.lo.x

/-- Modelled from the spec: `BoundingBox::getYSize`. -/
def getYSize (b : BBox) : ℚ := b.hi.y - b.lo.y

/-- Modelled from the spec: `BoundingBox::getZSize`. -/
def getZSize (b : BBox) : ℚ := b.hi.z - b.lo.z

/-- Internal triangle record, modelling `BVHTree::Triangle`
(`BVH.tcc` lines 44-59 give the default constructor). -/
structure Triangle where
  idx1 : ℕ
  idx2 : ℕ
  idx3 : ℕ
  center : V3
  normal : V3
  d : ℚ
  d1 : ℚ
  d2 : ℚ
  d3 : ℚ
  e1 : V3
  e2 : V3
  e3 : V3
  bb : BBox
deriving DecidableEq, Repr

/-- Default-constructed `Triangle` (`BVH.tcc` lines 44-59). -/
def defaultTriangle : Triangle :=
  { idx1 := 0, idx2 := 0, idx3 := 0
    center := ⟨0, 0, 0⟩
    normal := ⟨0, 1, 0⟩
    d := 0, d1 := 0, d2 := 0, d3 := 0
    e1 := ⟨0, 1, 0⟩, e2 := ⟨0, 1, 0⟩, e3 := ⟨0, 1, 0⟩
    bb := emptyBB }

instance : Inhabited Triangle := ⟨defaultTriangle⟩

/-- Work item, modelling `BVHTree::AABB`: a bounding box plus the index of
the triangle it bounds. -/
structure AABB where
  bb : BBox
  triangle : ℕ
deriving DecidableEq, Repr

/-- Read a raw vertex coordinate; out-of-range reads are undefined behavior
in the source and default to `0` here. -/
def getV (vs : List ℚ) (k : ℕ) : ℚ := vs.getD k 0

/-- Build the point for vertex index `f` from the raw coordinate array
(`vertices[faces[i]*3]`, `... + 1`, `... + 2`; `BVH.tcc` lines 104-118). -/
def fetchP (vs : List ℚ) (f : ℕ) : V3 :=
  ⟨getV vs (3 * f), getV vs (3 * f + 1), getV vs (3 * f + 2)⟩

/-- The best-normal selection of `BVH.tcc` lines 147-160: each cross product
is normalized (modelled by `u`), `normal1` starts as the best and is replaced
whenever a later normalized cross has strictly larger length (modelled by
strictly larger squared length, an equivalent comparison). -/
def bestOf (u : V3 → V3) (c1 c2 c3 : V3) : V3 :=
  let n1 := u c1
  let n2 := u c2
  let n3 := u c3
  let b2 := if sqLen n1 < sqLen n2 then n2 else n1
  if sqLen b2 < sqLen n3 then n3 else b2

/-- The selection the spec describes in its own words: the raw cross product
of largest magnitude among the three, the first kept on ties. -/
def specBestCross (c1 c2 c3 : V3) : V3 :=
  let b2 := if sqLen c1 < sqLen c2 then c2 else c1
  if sqLen b2 < sqLen c3 then c3 else b2

/-- The per-face `Triangle` record built in `BVH.tcc` lines 140-172:
centroid, best normal, plane constant `d`, and the three edge planes with
their constants. -/
def mkTriangle (u : V3 → V3) (p1 p2 p3 : V3) (i1 i2 i3 : ℕ) (faceBb : BBox) :
    Triangle :=
  let vc1 := vsub p2 p1
  let vc2 := vsub p3 p2
  let vc3 := vsub p1 p3
  let n := bestOf u (cross vc1 vc2) (cross vc2 vc3) (cross vc3 vc1)
  let te1 := u (cross n vc1)
  let te2 := u (cross n vc2)
  let te3 := u (cross n vc3)
  { idx1 := i1, idx2 := i2, idx3 := i3
    center := vsmul (1/3) (vadd (vadd p1 p2) p3)
    normal := n
    d := dot n p1
    d1 := dot te1 p1, d2 := dot te2 p2, d3 := dot te3 p3
    e1 := te1, e2 := te2, e3 := te3
    bb := faceBb }

/-- State accumulated by the face loop of `buildTree`: the triangle store
`m_triangles`, the AABB work list, and the running outer bounding box. -/
structure PPState where
  tris : List Triangle
  work : List AABB
  outer : BBox
deriving DecidableEq, Repr

/-- Degeneracy test of `BVH.tcc` lines 125-132: a face is skipped when any
of the three edge-pair cross products has zero length (zero squared length,
equivalently). -/
def isDegenerate (vs : List ℚ) (f1 f2 f3 : ℕ) : Bool :=
  let p1 := fetchP vs f1
  let p2 := fetchP vs f2
  let p3 := fetchP vs f3
  let vc1 := vsub p2 p1
  let vc2 := vsub p3 p2
  let vc3 := vsub p1 p3
  sqLen (cross vc1 vc2) = 0 ∨ sqLen (cross vc2 vc3) = 0 ∨
    sqLen (cross vc3 vc1) = 0

/-- One iteration of the face loop of `buildTree` (`BVH.tcc` lines 102-182):
skip a degenerate face, otherwise append the triangle record (whose store
index is the current store size) and its AABB work item, and expand the
outer bounding box. -/
def stepFace (u : V3 → V3) (vs : List ℚ) (f1 f2 f3 : ℕ) (st : PPState) :
    PPState :=
  if isDegenerate vs f1 f2 f3 then st
  else
    let p1 := fetchP vs f1
    let p2 := fetchP vs f2
    let p3 := fetchP vs f3
    let faceBb := expandP (expandP (expandP emptyBB p1) p2) p3
    { tris := st.tris ++ [mkTriangle u p1 p2 p3 f1 f2 f3 faceBb]
      work := st.work ++ [⟨faceBb, st.tris.length⟩]
      outer := expandB st.outer faceBb }

/-- The face loop of `buildTree`, consuming the flat face-index array three
entries at a time (an incomplete trailing chunk is out-of-range access in
the source and is dropped here). -/
def processFacesAux (u : V3 → V3) (vs : List ℚ) :
    List ℕ → PPState → PPState
  | f1 :: f2 :: f3 :: rest, st =>
      processFacesAux u vs rest (stepFace u vs f1 f2 f3 st)
  | _, st => st

/-- The full primitive-preprocessing pass of `buildTree`
(`BVH.tcc` lines 95-182), starting from empty stores. -/
def processFaces (u : V3 → V3) (vs : List ℚ) (fs : List ℕ) : PPState :=
  processFacesAux u vs fs ⟨[], [], emptyBB⟩

/-- Minimum corner coordinate of a box along axis 0, 1 or 2
(`bb.getMin().x` and so on, `BVH.tcc` lines 354-368 and 475-489). -/
def axisMin (b : BBox) : ℕ → ℚ
  | 0 => b.lo.x
  | 1 => b.lo.y
  | _ => b.lo.z

/-- Maximum corner coordinate of a box along axis 0, 1 or 2. -/
def axisMax (b : BBox) : ℕ → ℚ
  | 0 => b.hi.x
  | 1 => b.hi.y
  | _ => b.hi.z

/-- Centroid coordinate of a work item on an axis (`BVH.tcc` lines 384-396
and 493-499). -/
def centroidC (b : BBox) : ℕ → ℚ
  | 0 => (getCentroid b).x
  | 1 => (getCentroid b).y
  | _ => (getCentroid b).z

/-- Bucket index of a centroid coordinate:
`std::clamp<int>(std::floor((value - start) * 32 / range), 0, 31)`
(`BVH.tcc` lines 398 and 500). -/
def bIdx (start range value : ℚ) : ℕ :=
  (max 0 (min 31 ⌊(value - start) * 32 / range⌋)).toNat

/-- Surface-area measure of `BVH.tcc` lines 343-344 and 437-440:
`dx*dy + dy*dz + dz*dx` (half the true surface area; the constant factor
cancels in every comparison). -/
def surf (b : BBox) : ℚ :=
  getXSize b * getYSize b + getYSize b * getZSize b +
    getZSize b * getXSize b

/-- The 32 buckets accumulated along one axis (`BVH.tcc` lines 376-401):
per bucket, the union of member boxes and the member count. -/
def bucketsOf (work : List AABB) (start range : ℚ) (ax : ℕ) :
    List (BBox × ℕ) :=
  work.foldl
    (fun bks a =>
      let j := bIdx start range (centroidC a.bb ax)
      let b := bks.getD j (emptyBB, 0)
      bks.set j (expandB b.1 a.bb, b.2 + 1))
    (List.replicate 32 (emptyBB, 0))

/-- Union box and item count of the buckets strictly left of split `i`,
skipping invalid buckets (`BVH.tcc` lines 410-419). -/
def leftAccum (bks : List (BBox × ℕ)) (i : ℕ) : BBox × ℕ :=
  (List.range i).foldl
    (fun acc j =>
      let b := bks.getD j (emptyBB, 0)
      if isValid b.1 then (expandB acc.1 b.1, acc.2 + b.2) else acc)
    (emptyBB, 0)

/-- Union box and item count of the buckets at or right of split `i`
(`BVH.tcc` lines 421-429). -/
def rightAccum (bks : List (BBox × ℕ)) (i : ℕ) : BBox × ℕ :=
  (List.range' i (32 - i)).foldl
    (fun acc j =>
      let b := bks.getD j (emptyBB, 0)
      if isValid b.1 then (expandB acc.1 b.1, acc.2 + b.2) else acc)
    (emptyBB, 0)

/-- Evaluation of one candidate split (`BVH.tcc` lines 404-450): the
candidate is skipped when either side has at most one item or an invalid
box; otherwise its cost replaces the running minimum when strictly
smaller. -/
def evalSplit (bks : List (BBox × ℕ)) (ax : ℕ)
    (st : ℚ × Option (ℕ × ℕ)) (i : ℕ) : ℚ × Option (ℕ × ℕ) :=
  let l := leftAccum bks i
  let r := rightAccum bks i
  if l.2 ≤ 1 ∨ r.2 ≤ 1 ∨ ¬ isValid l.1 ∨ ¬ isValid r.1 then st
  else
    let totalCost := surf l.1 * l.2 + surf r.1 * r.2
    if totalCost < st.1 then (totalCost, some (ax, i)) else st

/-- The split search over one axis (`BVH.tcc` lines 350-451): the axis is
skipped entirely when its extent is below `1e-4`, otherwise the 31
candidate positions are evaluated in order. -/
def searchAxis (work : List AABB) (bb : BBox) (ax : ℕ)
    (st : ℚ × Option (ℕ × ℕ)) : ℚ × Option (ℕ × ℕ) :=
  let start := axisMin bb ax
  let stop := axisMax bb ax
  if |stop - start| < 1/10000 then st
  else
    (List.range' 1 31).foldl
      (evalSplit (bucketsOf work start (stop - start) ax) ax) st

/-- The complete split search of `buildTreeRecursive`: the running minimum
starts at the no-split baseline `itemCount * surf bb` and the three axes are
searched in order. -/
def bestSplit (work : List AABB) (bb : BBox) : ℚ × Option (ℕ × ℕ) :=
  searchAxis work bb 2 (searchAxis work bb 1 (searchAxis work bb 0
    ((work.length : ℚ) * surf bb, none)))

/-- The in-place partition predicate of `BVH.tcc` lines 491-502: an item
goes left when its recomputed bucket index on the winning axis is strictly
below the winning split index. -/
def splitPred (bb : BBox) (ax i : ℕ) (a : AABB) : Bool :=
  let start := axisMin bb ax
  let range := axisMax bb ax - start
  bIdx start range (centroidC a.bb ax) < i

/-- Pointer-based BVH node (`BVHInner` / `BVHLeaf` of the header, per the
spec a tagged two-case variant owning its children or its index list). -/
inductive BVHNode where
  | leaf (bb : BBox) (tris : List ℕ)
  | inner (bb : BBox) (l : BVHNode) (r : BVHNode)
deriving DecidableEq, Repr

/-- Bounding box stored in a node. -/
def nodeBB : BVHNode → BBox
  | .leaf bb _ => bb
  | .inner bb _ _ => bb

/-- Union bounding box of a work slice (`BVH.tcc` lines 316-320). -/
def sliceBB (work : List AABB) : BBox :=
  work.foldl (fun b a => expandB b a.bb) emptyBB

/-- `buildTreeRecursive` (`BVH.tcc` lines 306-518), with an explicit fuel
parameter to express the recursion: a slice of at most 4 items, or one with
no beneficial split, becomes a leaf holding the slice triangle indices; the
returned number is the maximum depth over the leaves of the subtree, which
is what the critical-section updates of `m_depth` accumulate.  The fuel-zero
branch is unreachable for the fuel supplied by `buildTree` (see
`buildTreeRecursive_fuel_irrelevant`). -/
def buildTreeRecursive : ℕ → List AABB → ℕ → BVHNode × ℕ
  | 0, work, depth => (.leaf (sliceBB work) (work.map (·.triangle)), depth)
  | fuel + 1, work, depth =>
    let bb := sliceBB work
    if work.length ≤ 4 then
      (.leaf bb (work.map (·.triangle)), depth)
    else
      match (bestSplit work bb).2 with
      | none => (.leaf bb (work.map (·.triangle)), depth)
      | some (ax, i) =>
        let p := work.partition (splitPred bb ax i)
        let l := buildTreeRecursive fuel p.1 (depth + 1)
        let r := buildTreeRecursive fuel p.2 (depth + 1)
        (.inner bb l.1 r.1, max l.2 r.2)

/-- Mirror of `buildTreeRecursive` recording the length of every slice the
recursion is invoked on, in call order. -/
def buildSlices : ℕ → List AABB → List ℕ
  | 0, work => [work.length]
  | fuel + 1, work =>
    let bb := sliceBB work
    work.length ::
      (if work.length ≤ 4 then []
       else
         match (bestSplit work bb).2 with
         | none => []
         | some (ax, i) =>
           let p := work.partition (splitPred bb ax i)
           buildSlices fuel p.1 ++ buildSlices fuel p.2)

/-- Replace the bounding box stored at the root
(`out->bb = outerBb`, `BVH.tcc` line 193). -/
def setBB : BVHNode → BBox → BVHNode
  | .leaf _ ts, b => .leaf b ts
  | .inner _ l r, b => .inner b l r

/-- The six limit entries of one node
(`BVH.tcc` lines 533-540: xmin, xmax, ymin, ymax, zmin, zmax). -/
def limitsOf (bb : BBox) : List ℚ :=
  [bb.lo.x, bb.hi.x, bb.lo.y, bb.hi.y, bb.lo.z, bb.hi.z]

/-- `createCFTreeRecursive` (`BVH.tcc` lines 529-590), rendered
functionally: the node at flat index `myIdx` emits its limits and its
4-word descriptor, then the left child is visited at `myIdx + 1`
(`idxLeft = ++idxBoxes`) and the right child at one past the last index the
left subtree used (`idxRight = ++idxBoxes` after the left recursion); the
back-patched child slots are filled directly.  `trilBase` is the length of
`m_triIndexList` before this subtree appends to it.  Returns the last flat
index used, the limits chunk, the descriptor chunk and the triangle-index
chunk.  The `static_cast<uint32_t>` on counts, start offsets and triangle
indices is the reduction modulo `2 ^ 32`. -/
def createCFTreeRecursive :
    BVHNode → ℕ → ℕ → ℕ × List ℚ × List ℕ × List ℕ
  | .leaf bb tris, myIdx, trilBase =>
    (myIdx, limitsOf bb,
     [Nat.lor 0x80000000 (tris.length % 2 ^ 32), 0, 0, trilBase % 2 ^ 32],
     tris.map (· % 2 ^ 32))
  | .inner bb l r, myIdx, trilBase =>
    let cl := createCFTreeRecursive l (myIdx + 1) trilBase
    let cr := createCFTreeRecursive r (cl.1 + 1) (trilBase + cl.2.2.2.length)
    (cr.1,
     limitsOf bb ++ cl.2.1 ++ cr.2.1,
     [0, myIdx + 1, cl.1 + 1, 0] ++ cl.2.2.1 ++ cr.2.2.1,
     cl.2.2.2 ++ cr.2.2.2)

/-- The 16-float intersection record of one triangle
(`BVH.tcc` lines 599-617). -/
def triRecord (t : Triangle) : List ℚ :=
  [t.normal.x, t.normal.y, t.normal.z, t.d,
   t.e1.x, t.e1.y, t.e1.z, t.d1,
   t.e2.x, t.e2.y, t.e2.z, t.d2,
   t.e3.x, t.e3.y, t.e3.z, t.d3]

/-- `convertTrianglesIntersectionData` (`BVH.tcc` lines 592-619): the
records of all stored triangles, concatenated in store order. -/
def convertTrianglesIntersectionData (tris : List Triangle) : List ℚ :=
  (tris.map triRecord).flatten

/-- The persistent result of construction: the triangle store, the root of
the pointer tree, `m_depth`, and the four flat arrays. -/
structure BVHData where
  triangles : List Triangle
  root : BVHNode
  depth : ℕ
  limits : List ℚ
  inds : List ℕ
  tril : List ℕ
  inter : List ℚ
deriving DecidableEq, Repr

/-- The full `BVHTree` construction (`BVH.tcc` lines 61-67, 90-196 and
520-527): preprocess the faces, build the tree recursively from the work
list (with fuel `work.length + 1`, which theorem
`buildTreeRecursive_fuel_irrelevant` shows is as good as any larger fuel),
overwrite the root box with the outer box, flatten, and convert the
intersection data.  `m_depth` starts at 0 and ends as the maximum leaf
depth. -/
def bvhBuild (u : V3 → V3) (vs : List ℚ) (fs : List ℕ) : BVHData :=
  let st := processFaces u vs fs
  let b := buildTreeRecursive (st.work.length + 1) st.work 0
  let root := setBB b.1 st.outer
  let cf := createCFTreeRecursive root 0 0
  { triangles := st.tris
    root := root
    depth := b.2
    limits := cf.2.1
    inds := cf.2.2.1
    tril := cf.2.2.2
    inter := convertTrianglesIntersectionData st.tris }

/-- Candidate split positions in the order the source visits them: axes 0,
1, 2 (those whose extent is at least `1e-4`), and for each axis the split
indices 1 to 31. -/
def specCandidates (bb : BBox) : List (ℕ × ℕ) :=
  (([0, 1, 2] : List ℕ).filter
      (fun ax => ¬ |axisMax bb ax - axisMin bb ax| < 1/10000)).flatMap
    (fun ax => (List.range' 1 31).map (fun i => (ax, i)))

/-- Acceptance of a candidate split, in the words of the claim: both sides
must have at least 2 items and valid boxes. -/
def specAccept (work : List AABB) (bb : BBox) (c : ℕ × ℕ) : Bool :=
  let bks := bucketsOf work (axisMin bb c.1)
    (axisMax bb c.1 - axisMin bb c.1) c.1
  let l := leftAccum bks c.2
  let r := rightAccum bks c.2
  2 ≤ l.2 ∧ 2 ≤ r.2 ∧ isValid l.1 ∧ isValid r.1

/-- Cost of a candidate split, in the words of the claim:
`surfaceArea(leftBox) * leftCount + surfaceArea(rightBox) * rightCount`. -/
def specCost (work : List AABB) (bb : BBox) (c : ℕ × ℕ) : ℚ :=
  let bks := bucketsOf work (axisMin bb c.1)
    (axisMax bb c.1 - axisMin bb c.1) c.1
  let l := leftAccum bks c.2
  let r := rightAccum bks c.2
  surf l.1 * l.2 + surf r.1 * r.2

/-- The split selection in the words of the claim: among the accepted
candidates, the first one (lowest axis, then lowest split index) whose cost
is minimal over all accepted candidates, adopted only when that cost is
strictly below the baseline `itemCount * surfaceArea(bb)`. -/
def specBestSplit (work : List AABB) (bb : BBox) : Option (ℕ × ℕ) :=
  let base : ℚ := (work.length : ℚ) * surf bb
  let valids := (specCandidates bb).filter (specAccept work bb)
  valids.find? (fun c =>
    decide (specCost work bb c < base) &&
      valids.all (fun c₂ => decide (specCost work bb c ≤ specCost work bb c₂)))

/-- Number of nodes of a pointer tree. -/
def nodeCount : BVHNode → ℕ
  | .leaf _ _ => 1
  | .inner _ l r => 1 + nodeCount l + nodeCount r

/-- Triangle indices stored in the leaves, in depth-first left-to-right
order (the order the flattener appends them to `m_triIndexList`). -/
def treeTris : BVHNode → List ℕ
  | .leaf _ ts => ts
  | .inner _ l r => treeTris l ++ treeTris r

/-- All subtrees of a tree in depth-first pre-order; the node at flat index
`k` of the flattened output is the root of entry `k` of this list. -/
def preorderNodes : BVHNode → List BVHNode
  | .leaf bb ts => [.leaf bb ts]
  | .inner bb l r => .inner bb l r :: (preorderNodes l ++ preorderNodes r)

/-- Number of triangle indices appended to `m_triIndexList` by the leaves
that precede node `k` in pre-order. -/
def leafSize : BVHNode → ℕ
  | .leaf _ ts => ts.length
  | .inner _ _ _ => 0

/-- Sum of `leafSize` over the first `k` pre-order nodes. -/
def trisBefore (t : BVHNode) (k : ℕ) : ℕ :=
  (((preorderNodes t).take k).map leafSize).sum

/-- Word `j` of the descriptor of the node at flat index `k`. -/
def word (inds : List ℕ) (k j : ℕ) : ℕ := inds.getD (4 * k + j) 0

/-- The walk the claim describes over the flat arrays: starting from a flat
node index, follow the stored child indices at inner entries (word0 = 0) and
collect, at leaf entries (top bit of word0 set), the sub-range of
`triIndexList` that starts at word3 and has the length encoded in the
remaining bits of word0.  The fuel bounds the number of steps; node count of
the tree suffices. -/
def walkCF (inds tril : List ℕ) : ℕ → ℕ → List ℕ
  | 0, _ => []
  | fuel + 1, i =>
    if (word inds i 0).testBit 31 then
      (tril.drop (word inds i 3)).take (word inds i 0 % 2 ^ 31)
    else
      walkCF inds tril fuel (word inds i 1) ++
        walkCF inds tril fuel (word inds i 2)

/-- The bounding-box invariant of the spec, relative to a triangle store:
every inner box is the union of its two children boxes, and every leaf box
is the union of its member triangles boxes. -/
def bbInv (tris : List Triangle) : BVHNode → Prop
  | .leaf bb ts =>
      bb = (ts.map (fun i => (tris.getD i defaultTriangle).bb)).foldl
        expandB emptyBB
  | .inner bb l r =>
      bb = expandB (nodeBB l) (nodeBB r) ∧ bbInv tris l ∧ bbInv tris r

/-- Decidable check that every leaf of a tree holds at least one triangle
index. -/
def leavesNonempty : BVHNode → Bool
  | .leaf _ ts => ! ts.isEmpty
  | .inner _ l r => leavesNonempty l && leavesNonempty r

/-- Decidable check that every face (3-index chunk) of a face list is
degenerate. -/
def allFacesDegenerate (vs : List ℚ) : List ℕ → Bool
  | f1 :: f2 :: f3 :: rest =>
      isDegenerate vs f1 f2 f3 && allFacesDegenerate vs rest
  | _ => true

/-- Invariant tying the preprocessing state together: work items carry the
store indices 0, 1, 2, ... in order; each work item shares its box with its
triangle record and that box is valid; the outer box is the union of the
work boxes. -/
def ppInv (st : PPState) : Prop :=
  st.work.map (·.triangle) = List.range st.tris.length ∧
  (∀ a ∈ st.work,
      (st.tris.getD a.triangle defaultTriangle).bb = a.bb ∧
      isValid a.bb = true) ∧
  st.outer = sliceBB st.work

/-! ### Bounding-box algebra -/

lemma vmin_assoc (a b c : V3) : vmin (vmin a b) c = vmin a (vmin b c) := by
  simp [vmin, min_assoc]

lemma vmax_assoc (a b c : V3) : vmax (vmax a b) c = vmax a (vmax b c) := by
  simp [vmax, max_assoc]

lemma expandB_assoc (a b c : BBox) :
    expandB (expandB a b) c = expandB a (expandB b c) := by
  cases ha : a.valid <;> cases hb : b.valid <;> cases hc : c.valid <;>
    simp [expandB, ha, hb, hc, vmin, vmax, min_assoc, max_assoc]

lemma expandB_right_comm (b x y : BBox) :
    expandB (expandB b x) y = expandB (expandB b y) x := by
  cases hb : b.valid <;> cases hx : x.valid <;> cases hy : y.valid <;>
    simp [expandB, hb, hx, hy, vmin, vmax, min_assoc, min_comm,
      min_left_comm, max_assoc, max_comm, max_left_comm]

lemma expandB_empty_right (b : BBox) : expandB b emptyBB = b := by
  simp [expandB, emptyBB]

lemma expandB_empty_absorb (b X : BBox) :
    expandB b (expandB emptyBB X) = expandB b X := by
  cases hx : X.valid <;> simp [expandB, emptyBB, hx]

lemma expandB_valid_right (b c : BBox) (h : c.valid = true) :
    (expandB b c).valid = true := by
  cases hb : b.valid <;> simp [expandB, h, hb]

lemma expandP_valid (b : BBox) (p : V3) : (expandP b p).valid = true := by
  unfold expandP; split <;> rfl

lemma foldl_expandB_eq (l : List AABB) :
    ∀ b, l.foldl (fun b a => expandB b a.bb) b = expandB b (sliceBB l) := by
  induction l with
  | nil => intro b; simp [sliceBB, expandB_empty_right]
  | cons a l IH =>
    intro b
    have h1 : sliceBB (a :: l) = expandB emptyBB (expandB a.bb (sliceBB l)) := by
      have h0 : sliceBB (a :: l) =
          List.foldl (fun b a => expandB b a.bb) (expandB emptyBB a.bb) l := rfl
      rw [h0, IH (expandB emptyBB a.bb), expandB_assoc]
    simp only [List.foldl_cons]
    rw [IH (expandB b a.bb), h1, expandB_empty_absorb, expandB_assoc]

lemma sliceBB_append (l₁ l₂ : List AABB) :
    sliceBB (l₁ ++ l₂) = expandB (sliceBB l₁) (sliceBB l₂) := by
  simp only [sliceBB, List.foldl_append]
  exact foldl_expandB_eq l₂ _

lemma sliceBB_perm {l₁ l₂ : List AABB} (h : l₁.Perm l₂) :
    sliceBB l₁ = sliceBB l₂ :=
  List.Perm.foldl_eq' h (fun x _ y _ z => expandB_right_comm z x.bb y.bb) _

lemma sliceBB_singleton (a : AABB) : sliceBB [a] = expandB emptyBB a.bb := rfl

/-! ### Preprocessing invariants -/

lemma mkTriangle_bb (u : V3 → V3) (p1 p2 p3 : V3) (i1 i2 i3 : ℕ)
    (fb : BBox) : (mkTriangle u p1 p2 p3 i1 i2 i3 fb).bb = fb := rfl

lemma stepFace_inv (u : V3 → V3) (vs : List ℚ) (f1 f2 f3 : ℕ)
    (st : PPState) (h : ppInv st) : ppInv (stepFace u vs f1 f2 f3 st) := by
  unfold stepFace
  split
  · exact h
  · rcases h with ⟨h1, h2, h3⟩
    refine ⟨?_, ?_, ?_⟩
    · simp only [List.map_append, List.map_cons, List.map_nil,
        List.length_append, List.length_cons, List.length_nil, h1]
      rw [List.range_succ]
    · intro a ha
      rcases List.mem_append.1 ha with ha | ha
      · have htr : a.triangle < st.tris.length := by
          have : a.triangle ∈ st.work.map (·.triangle) :=
            List.mem_map.2 ⟨a, ha, rfl⟩
          rw [h1] at this
          exact List.mem_range.1 this
        rw [List.getD_append _ _ _ _ (by omega)]
        exact h2 a ha
      · simp only [List.mem_singleton] at ha
        subst ha
        constructor
        · rw [List.getD_append_right _ _ _ _ (le_refl _)]
          simp [mkTriangle_bb]
        · exact expandP_valid _ _
    · simp only [sliceBB_append, sliceBB_singleton, ← h3]
      rw [expandB_empty_absorb]

lemma processFacesAux_inv (u : V3 → V3) (vs : List ℚ) :
    ∀ (fs : List ℕ) (st : PPState), ppInv st →
      ppInv (processFacesAux u vs fs st)
  | f1 :: f2 :: f3 :: rest, st, h =>
      processFacesAux_inv u vs rest _ (stepFace_inv u vs f1 f2 f3 st h)
  | [], _, h => h
  | [_], _, h => h
  | [_, _], _, h => h

lemma processFaces_inv (u : V3 → V3) (vs : List ℚ) (fs : List ℕ) :
    ppInv (processFaces u vs fs) := by
  apply processFacesAux_inv
  refine ⟨rfl, ?_, rfl⟩
  intro a ha
  simp at ha

lemma processFaces_length (u : V3 → V3) (vs : List ℚ) (fs : List ℕ) :
    (processFaces u vs fs).work.length = (processFaces u vs fs).tris.length := by
  have h := (processFaces_inv u vs fs).1
  have := congrArg List.length h
  simpa using this

/-! ### C3: face-normal selection -/

lemma cross_edges_eq₁ (p1 p2 p3 : V3) :
    cross (vsub p2 p1) (vsub p3 p2) = cross (vsub p3 p2) (vsub p1 p3) := by
  simp only [cross, vsub, V3.mk.injEq]
  refine ⟨by ring, by ring, by ring⟩

lemma cross_edges_eq₂ (p1 p2 p3 : V3) :
    cross (vsub p2 p1) (vsub p3 p2) = cross (vsub p1 p3) (vsub p2 p1) := by
  simp only [cross, vsub, V3.mk.injEq]
  refine ⟨by ring, by ring, by ring⟩

/-- C3: for every triangle record built by the preprocessor (in particular
for every retained, non-degenerate one), the stored face normal equals the
unit-length normalization — modelled by the arbitrary normalization
function `u` — of the edge-pair cross product of largest magnitude among
`cross1`, `cross2`, `cross3` (first kept on ties).  In exact arithmetic the
three cross products coincide (`cross_edges_eq₁`, `cross_edges_eq₂`), so the
code selection, which compares the lengths of the already-normalized
vectors, picks the same vector the spec describes. -/
theorem claim_C3_storedNormal (u : V3 → V3) (p1 p2 p3 : V3) (i1 i2 i3 : ℕ)
    (faceBb : BBox) :
    (mkTriangle u p1 p2 p3 i1 i2 i3 faceBb).normal =
      u (specBestCross (cross (vsub p2 p1) (vsub p3 p2))
        (cross (vsub p3 p2) (vsub p1 p3))
        (cross (vsub p1 p3) (vsub p2 p1))) := by
  have h1 := cross_edges_eq₁ p1 p2 p3
  have h2 := cross_edges_eq₂ p1 p2 p3
  show bestOf u (cross (vsub p2 p1) (vsub p3 p2))
      (cross (vsub p3 p2) (vsub p1 p3))
      (cross (vsub p1 p3) (vsub p2 p1)) = _
  rw [← h1, ← h2]
  simp [bestOf, specBestCross]

/-! ### C8: degenerate faces are skipped; intersection records -/

lemma convert_length (tris : List Triangle) :
    (convertTrianglesIntersectionData tris).length = 16 * tris.length := by
  induction tris with
  | nil => rfl
  | cons t ts IH =>
    simp only [convertTrianglesIntersectionData, List.map_cons,
      List.flatten_cons, List.length_append, List.length_cons] at IH ⊢
    have ht : (triRecord t).length = 16 := rfl
    omega

lemma convert_get (tris : List Triangle) :
    ∀ k, k < tris.length →
      ((convertTrianglesIntersectionData tris).drop (16 * k)).take 16 =
        triRecord (tris.getD k defaultTriangle) := by
  induction tris with
  | nil => intro k hk; simp at hk
  | cons t ts IH =>
    intro k hk
    cases k with
    | zero =>
      show ((triRecord t ++ (convertTrianglesIntersectionData ts)).drop 0).take 16 = _
      rw [List.drop_zero]
      rw [show (16 : ℕ) = (triRecord t).length from rfl, List.take_left]
      rfl
    | succ k' =>
      have hstep :
          (convertTrianglesIntersectionData (t :: ts)).drop (16 * (k' + 1)) =
            (convertTrianglesIntersectionData ts).drop (16 * k') := by
        show (triRecord t ++ convertTrianglesIntersectionData ts).drop (16 * (k' + 1)) = _
        rw [show 16 * (k' + 1) = (triRecord t).length + 16 * k' by
          simp [triRecord]; ring]
        rw [List.drop_append]
      rw [hstep]
      have hk' : k' < ts.length := by simpa using hk
      rw [IH k' hk']
      rfl

/-- C8: a face any of whose three edge-pair cross products has zero length
is silently skipped — the preprocessing state (triangle store, AABB work
list, outer bounding box) is unchanged and no error is surfaced (the model
is total); and every retained triangle contributes a fully populated
16-value record (normal, d, e1, d1, e2, d2, e3, d3) to
`trianglesIntersectionData`, in store order with no gaps. -/
theorem claim_C8_degenerateSkip :
    (∀ (u : V3 → V3) (vs : List ℚ) (f1 f2 f3 : ℕ) (rest : List ℕ)
        (st : PPState), isDegenerate vs f1 f2 f3 = true →
        processFacesAux u vs (f1 :: f2 :: f3 :: rest) st =
          processFacesAux u vs rest st) ∧
    (∀ tris : List Triangle,
        (convertTrianglesIntersectionData tris).length = 16 * tris.length) ∧
    (∀ (tris : List Triangle) (k : ℕ), k < tris.length →
        ((convertTrianglesIntersectionData tris).drop (16 * k)).take 16 =
          triRecord (tris.getD k defaultTriangle)) := by
  refine ⟨?_, convert_length, convert_get⟩
  intro u vs f1 f2 f3 rest st h
  show processFacesAux u vs rest (stepFace u vs f1 f2 f3 st) = _
  rw [show stepFace u vs f1 f2 f3 st = st by simp [stepFace, h]]

/-- Witness for C8 at a concrete degenerate face and a concrete store. -/
theorem claim_C8_witness :
    (isDegenerate [0, 0, 0, 0, 0, 0, 1, 0, 0] 0 1 2 = true ∧
      processFacesAux (fun v => v) [0, 0, 0, 0, 0, 0, 1, 0, 0]
        [0, 1, 2] ⟨[], [], emptyBB⟩ =
        processFacesAux (fun v => v) [0, 0, 0, 0, 0, 0, 1, 0, 0]
          [] ⟨[], [], emptyBB⟩) ∧
    (convertTrianglesIntersectionData [defaultTriangle]).length = 16 * 1 ∧
    (0 < [defaultTriangle].length ∧
      ((convertTrianglesIntersectionData [defaultTriangle]).drop (16 * 0)).take 16 =
        triRecord ([defaultTriangle].getD 0 defaultTriangle)) :=
  ⟨⟨by with_unfolding_all decide,
    claim_C8_degenerateSkip.1 (fun v => v) _ 0 1 2 [] ⟨[], [], emptyBB⟩
      (by with_unfolding_all decide)⟩,
   claim_C8_degenerateSkip.2.1 [defaultTriangle],
   by decide,
   claim_C8_degenerateSkip.2.2 [defaultTriangle] 0 (by decide)⟩

/-! ### C10: empty or fully degenerate input -/

lemma processFacesAux_allDeg (u : V3 → V3) (vs : List ℚ) :
    ∀ (fs : List ℕ) (st : PPState), allFacesDegenerate vs fs = true →
      processFacesAux u vs fs st = st
  | f1 :: f2 :: f3 :: rest, st, h => by
      have h' : isDegenerate vs f1 f2 f3 = true ∧
          allFacesDegenerate vs rest = true := by
        simpa [allFacesDegenerate] using h
      show processFacesAux u vs rest (stepFace u vs f1 f2 f3 st) = st
      rw [show stepFace u vs f1 f2 f3 st = st by simp [stepFace, h'.1]]
      exact processFacesAux_allDeg u vs rest st h'.2
  | [], _, _ => rfl
  | [_], _, _ => rfl
  | [_, _], _, _ => rfl

/-- C10: when the face list is empty or every face is degenerate,
construction still completes and the flat representation holds exactly one
node record — a leaf with word0 = `0x80000000` (leaf flag set, count 0),
zero child words and start offset 0 — while `triIndexList` and
`trianglesIntersectionData` are empty. -/
theorem claim_C10_emptyInput (u : V3 → V3) (vs : List ℚ) (fs : List ℕ)
    (h : fs = [] ∨ allFacesDegenerate vs fs = true) :
    (bvhBuild u vs fs).inds = [0x80000000, 0, 0, 0] ∧
    (bvhBuild u vs fs).limits.length = 6 ∧
    (bvhBuild u vs fs).tril = [] ∧
    (bvhBuild u vs fs).inter = [] := by
  have hpf : processFaces u vs fs = ⟨[], [], emptyBB⟩ := by
    rcases h with h | h
    · rw [h]; rfl
    · exact processFacesAux_allDeg u vs fs _ h
  simp only [bvhBuild, hpf]
  refine ⟨rfl, rfl, rfl, rfl⟩

/-- Witness for C10 at a concrete fully-degenerate input. -/
theorem claim_C10_witness :
    allFacesDegenerate ([0, 0, 0, 0, 0, 0, 1, 0, 0] : List ℚ) [0, 1, 2] = true ∧
    (bvhBuild (fun v => v) [0, 0, 0, 0, 0, 0, 1, 0, 0] [0, 1, 2]).inds =
      [0x80000000, 0, 0, 0] :=
  ⟨by with_unfolding_all decide,
   (claim_C10_emptyInput (fun v => v) [0, 0, 0, 0, 0, 0, 1, 0, 0] [0, 1, 2]
     (Or.inr (by with_unfolding_all decide))).1⟩

/-! ### C7: small slices become leaves -/

lemma buildTreeRecursive_small (fuel : ℕ) (work : List AABB) (depth : ℕ)
    (h : work.length ≤ 4) :
    buildTreeRecursive (fuel + 1) work depth =
      (BVHNode.leaf (sliceBB work) (work.map (·.triangle)), depth) := by
  rw [buildTreeRecursive, if_pos h]

/-- C7: a recursive build slice of at most 4 items becomes a leaf holding
exactly the slice triangle indices, with no recursion below it; and for an
input of exactly 4 retained triangles the root of the built tree is that
single leaf (no inner node) and the reported maximum depth is 0. -/
theorem claim_C7_smallSliceLeaf :
    (∀ (fuel : ℕ) (work : List AABB) (depth : ℕ), work.length ≤ 4 →
        buildTreeRecursive (fuel + 1) work depth =
          (BVHNode.leaf (sliceBB work) (work.map (·.triangle)), depth)) ∧
    (∀ (u : V3 → V3) (vs : List ℚ) (fs : List ℕ),
        (processFaces u vs fs).tris.length = 4 →
        (bvhBuild u vs fs).root =
          BVHNode.leaf (processFaces u vs fs).outer
            ((processFaces u vs fs).work.map (·.triangle)) ∧
        (bvhBuild u vs fs).depth = 0) := by
  refine ⟨buildTreeRecursive_small, ?_⟩
  intro u vs fs h
  have hlen : (processFaces u vs fs).work.length ≤ 4 := by
    rw [processFaces_length, h]
  simp only [bvhBuild]
  rw [buildTreeRecursive_small _ _ 0 hlen]
  exact ⟨rfl, rfl⟩

/-- Witness for C7 at a concrete mesh of exactly 4 retained triangles. -/
theorem claim_C7_witness :
    (processFaces (fun v => v)
        [0, 0, 0, 1, 0, 0, 0, 1, 0,
         1, 0, 0, 2, 0, 0, 1, 1, 0,
         2, 0, 0, 3, 0, 0, 2, 1, 0,
         100, 0, 0, 101, 0, 0, 100, 1, 0]
        [0, 1, 2, 3, 4, 5, 6, 7, 8, 9, 10, 11]).tris.length = 4 ∧
    (bvhBuild (fun v => v)
        [0, 0, 0, 1, 0, 0, 0, 1, 0,
         1, 0, 0, 2, 0, 0, 1, 1, 0,
         2, 0, 0, 3, 0, 0, 2, 1, 0,
         100, 0, 0, 101, 0, 0, 100, 1, 0]
        [0, 1, 2, 3, 4, 5, 6, 7, 8, 9, 10, 11]).depth = 0 :=
  ⟨by with_unfolding_all decide,
   (claim_C7_smallSliceLeaf.2 (fun v => v)
      [0, 0, 0, 1, 0, 0, 0, 1, 0,
       1, 0, 0, 2, 0, 0, 1, 1, 0,
       2, 0, 0, 3, 0, 0, 2, 1, 0,
       100, 0, 0, 101, 0, 0, 100, 1, 0]
      [0, 1, 2, 3, 4, 5, 6, 7, 8, 9, 10, 11]
      (by with_unfolding_all decide)).2⟩

/-! ### Bucket counting -/

lemma bIdx_lt (start range value : ℚ) : bIdx start range value < 32 := by
  unfold bIdx
  have h1 : min 31 ⌊(value - start) * 32 / range⌋ ≤ 31 := min_le_left _ _
  omega

lemma bucketsOf_getD (s r : ℚ) (ax : ℕ) :
    ∀ (work : List AABB) (init : List (BBox × ℕ)), init.length = 32 →
      ∀ (j : ℕ), j < 32 →
      (work.foldl
        (fun bks a =>
          let jj := bIdx s r (centroidC a.bb ax)
          let b := bks.getD jj (emptyBB, 0)
          bks.set jj (expandB b.1 a.bb, b.2 + 1)) init).getD j (emptyBB, 0) =
      (work.filter (fun a => bIdx s r (centroidC a.bb ax) = j)).foldl
        (fun p a => (expandB p.1 a.bb, p.2 + 1)) (init.getD j (emptyBB, 0)) := by
  intro work
  induction work with
  | nil => intro init _ j _; rfl
  | cons a rest IH =>
    intro init hlen j hj
    simp only [List.foldl_cons, List.filter_cons]
    by_cases hja : bIdx s r (centroidC a.bb ax) = j
    · have hset :
          ((init.set (bIdx s r (centroidC a.bb ax))
            (expandB (init.getD (bIdx s r (centroidC a.bb ax)) (emptyBB, 0)).1 a.bb,
             (init.getD (bIdx s r (centroidC a.bb ax)) (emptyBB, 0)).2 + 1)).getD j
            (emptyBB, 0)) =
          (expandB (init.getD j (emptyBB, 0)).1 a.bb,
            (init.getD j (emptyBB, 0)).2 + 1) := by
        subst hja
        rw [List.getD_eq_getElem _ _ (by simp [List.length_set, hlen, bIdx_lt])]
        rw [List.getElem_set_self]
      rw [IH _ (by simp [List.length_set, hlen]) j hj, hset]
      simp [hja]
    · have hset :
          ((init.set (bIdx s r (centroidC a.bb ax))
            (expandB (init.getD (bIdx s r (centroidC a.bb ax)) (emptyBB, 0)).1 a.bb,
             (init.getD (bIdx s r (centroidC a.bb ax)) (emptyBB, 0)).2 + 1)).getD j
            (emptyBB, 0)) = init.getD j (emptyBB, 0) := by
        rw [List.getD_eq_getElem _ _ (by simp [List.length_set, hlen, hj]),
          List.getElem_set_ne hja]
        exact (List.getD_eq_getElem _ _ (by simp [hlen, hj])).symm
      rw [IH _ (by simp [List.length_set, hlen]) j hj, hset]
      simp [hja]

lemma pairFold_snd (l : List AABB) :
    ∀ p : BBox × ℕ,
      (l.foldl (fun p a => (expandB p.1 a.bb, p.2 + 1)) p).2 = p.2 + l.length := by
  induction l with
  | nil => intro p; simp
  | cons a rest IH => intro p; simp [IH]; omega

lemma pairFold_fst (l : List AABB) :
    ∀ p : BBox × ℕ,
      (l.foldl (fun p a => (expandB p.1 a.bb, p.2 + 1)) p).1 =
        l.foldl (fun b a => expandB b a.bb) p.1 := by
  induction l with
  | nil => intro p; rfl
  | cons a rest IH => intro p; simp [IH]

lemma getD_replicate32 (j : ℕ) (hj : j < 32) :
    (List.replicate 32 ((emptyBB : BBox), (0 : ℕ))).getD j (emptyBB, 0) =
      (emptyBB, 0) := by
  rw [List.getD_eq_getElem _ _ (by simpa using hj)]
  apply List.getElem_replicate

lemma bucketsOf_cnt (work : List AABB) (s r : ℚ) (ax : ℕ) (j : ℕ)
    (hj : j < 32) :
    ((bucketsOf work s r ax).getD j (emptyBB, 0)).2 =
      (work.filter (fun a => bIdx s r (centroidC a.bb ax) = j)).length := by
  unfold bucketsOf
  rw [bucketsOf_getD s r ax work _ (by simp) j hj, getD_replicate32 j hj,
    pairFold_snd]
  simp

lemma bucketsOf_box (work : List AABB) (s r : ℚ) (ax : ℕ) (j : ℕ)
    (hj : j < 32) :
    ((bucketsOf work s r ax).getD j (emptyBB, 0)).1 =
      sliceBB (work.filter (fun a => bIdx s r (centroidC a.bb ax) = j)) := by
  unfold bucketsOf
  rw [bucketsOf_getD s r ax work _ (by simp) j hj, getD_replicate32 j hj,
    pairFold_fst]
  rfl

lemma bucketsOf_invalid_cnt (work : List AABB) (s r : ℚ) (ax : ℕ) (j : ℕ)
    (hj : j < 32) (hv : ∀ a ∈ work, a.bb.valid = true)
    (hinv : ((bucketsOf work s r ax).getD j (emptyBB, 0)).1.valid = false) :
    ((bucketsOf work s r ax).getD j (emptyBB, 0)).2 = 0 := by
  rw [bucketsOf_cnt work s r ax j hj]
  rw [bucketsOf_box work s r ax j hj] at hinv
  rcases hfe : work.filter (fun a => bIdx s r (centroidC a.bb ax) = j) with _ | ⟨a, rest⟩
  · rw [hfe]
    rfl
  · exfalso
    have habb : a.bb.valid = true := by
      have : a ∈ work.filter (fun a => bIdx s r (centroidC a.bb ax) = j) := by
        rw [hfe]; exact List.mem_cons_self a rest
      exact hv a (List.mem_filter.1 this).1
    have hval : ∀ (l : List AABB) (b : BBox), b.valid = true →
        (l.foldl (fun b a => expandB b a.bb) b).valid = true := by
      intro l
      induction l with
      | nil => intro b hb; exact hb
      | cons x xs IHx =>
        intro b hb
        simp only [List.foldl_cons]
        cases hx : x.bb.valid
        · exact IHx _ (by simp [expandB, hx, hb])
        · exact IHx _ (expandB_valid_right _ _ hx)
    rw [hfe] at hinv
    simp only [sliceBB, List.foldl_cons] at hinv
    rw [hval rest _ (expandB_valid_right _ _ habb)] at hinv
    exact Bool.true_eq_false.mp hinv

lemma accumFold_snd (bks : List (BBox × ℕ)) (L : List ℕ) :
    ∀ p : BBox × ℕ,
      (L.foldl (fun acc j =>
          let b := bks.getD j (emptyBB, 0)
          if isValid b.1 then (expandB acc.1 b.1, acc.2 + b.2) else acc) p).2 =
        p.2 + (L.map (fun j =>
          if isValid (bks.getD j (emptyBB, 0)).1 then
            (bks.getD j (emptyBB, 0)).2 else 0)).sum := by
  induction L with
  | nil => intro p; simp
  | cons j L' IH =>
    intro p
    simp only [List.foldl_cons, List.map_cons, List.sum_cons]
    by_cases hb : isValid (bks.getD j (emptyBB, 0)).1 = true
    · simp only [hb, if_true, IH]
      simp
      omega
    · simp only [hb, if_false, IH]
      simp [hb]

lemma filter_length_split (work : List AABB) (p q r : AABB → Bool)
    (h : ∀ a, (p a = true ↔ (q a = true ∨ r a = true)) ∧
      ¬(q a = true ∧ r a = true)) :
    (work.filter p).length = (work.filter q).length + (work.filter r).length := by
  induction work with
  | nil => simp
  | cons a rest IH =>
    simp only [List.filter_cons]
    rcases h a with ⟨hiff, hnand⟩
    by_cases hq : q a = true <;> by_cases hr : r a = true
    · exact absurd ⟨hq, hr⟩ hnand
    · have hp : p a = true := hiff.mpr (Or.inl hq)
      simp [hp, hq, hr, IH]
      omega
    · have hp : p a = true := hiff.mpr (Or.inr hr)
      simp [hp, hq, hr, IH]
      omega
    · have hp : ¬ p a = true := fun hp => by
        rcases hiff.mp hp with h' | h'
        · exact hq h'
        · exact hr h'
      simp [hp, hq, hr, IH]

lemma filter_bool_compl {α : Type _} (l : List α) (p : α → Bool) :
    (l.filter p).length + (l.filter (fun a => ! p a)).length = l.length := by
  induction l with
  | nil => simp
  | cons a rest IH => cases h : p a <;> simp [h, ← IH] <;> omega

lemma sum_cnt_range' (work : List AABB) (f : AABB → ℕ) :
    ∀ (n s : ℕ),
      ((List.range' s n).map
        (fun j => (work.filter (fun a => f a = j)).length)).sum =
      (work.filter (fun a => s ≤ f a ∧ f a < s + n)).length := by
  intro n
  induction n with
  | zero =>
    intro s
    have h0 : work.filter (fun a => decide (s ≤ f a ∧ f a < s + 0)) = [] := by
      apply List.filter_eq_nil_iff.2
      intro a _
      simp only [decide_eq_true_eq, not_and]
      omega
    rw [show List.range' s 0 = [] from rfl]
    rw [List.map_nil, List.sum_nil, h0]
    rfl
  | succ n IH =>
    intro s
    rw [List.range'_succ]
    simp only [List.map_cons, List.sum_cons]
    rw [IH (s + 1)]
    rw [filter_length_split work
      (fun a => decide (s ≤ f a ∧ f a < s + (n + 1)))
      (fun a => decide (f a = s))
      (fun a => decide (s + 1 ≤ f a ∧ f a < s + 1 + n))]
    intro a
    constructor
    · simp only [decide_eq_true_eq]
      omega
    · simp only [decide_eq_true_eq]
      omega

lemma leftAccum_cnt (work : List AABB) (s r : ℚ) (ax : ℕ) (i : ℕ)
    (hi : i ≤ 32) (hv : ∀ a ∈ work, a.bb.valid = true) :
    (leftAccum (bucketsOf work s r ax) i).2 =
      (work.filter (fun a => bIdx s r (centroidC a.bb ax) < i)).length := by
  unfold leftAccum
  rw [accumFold_snd]
  have hmap :
      (List.range i).map (fun j =>
        if isValid ((bucketsOf work s r ax).getD j (emptyBB, 0)).1 then
          ((bucketsOf work s r ax).getD j (emptyBB, 0)).2 else 0) =
      (List.range i).map (fun j =>
        (work.filter (fun a => bIdx s r (centroidC a.bb ax) = j)).length) := by
    apply List.map_congr_left
    intro j hj
    have hj32 : j < 32 := by
      have := List.mem_range.1 hj
      omega
    by_cases hval : isValid ((bucketsOf work s r ax).getD j (emptyBB, 0)).1 = true
    · rw [if_pos hval]
      exact bucketsOf_cnt work s r ax j hj32
    · rw [if_neg hval]
      have h0 := bucketsOf_invalid_cnt work s r ax j hj32 hv
        (by simpa [isValid] using hval)
      rw [bucketsOf_cnt work s r ax j hj32] at h0
      omega
  rw [hmap]
  have hr : List.range i = List.range' 0 i := List.range_eq_range' i
  rw [hr, sum_cnt_range' work _ i 0]
  have : (work.filter (fun a =>
      0 ≤ bIdx s r (centroidC a.bb ax) ∧ bIdx s r (centroidC a.bb ax) < 0 + i)) =
      (work.filter (fun a => bIdx s r (centroidC a.bb ax) < i)) := by
    apply List.filter_congr
    intro a _
    simp only [decide_eq_decide]
    omega
  rw [this]
  simp

lemma rightAccum_cnt (work : List AABB) (s r : ℚ) (ax : ℕ) (i : ℕ)
    (hi : i ≤ 32) (hv : ∀ a ∈ work, a.bb.valid = true) :
    (rightAccum (bucketsOf work s r ax) i).2 =
      (work.filter (fun a => i ≤ bIdx s r (centroidC a.bb ax))).length := by
  unfold rightAccum
  rw [accumFold_snd]
  have hmap :
      (List.range' i (32 - i)).map (fun j =>
        if isValid ((bucketsOf work s r ax).getD j (emptyBB, 0)).1 then
          ((bucketsOf work s r ax).getD j (emptyBB, 0)).2 else 0) =
      (List.range' i (32 - i)).map (fun j =>
        (work.filter (fun a => bIdx s r (centroidC a.bb ax) = j)).length) := by
    apply List.map_congr_left
    intro j hj
    have hj32 : j < 32 := by
      have := (List.mem_range'_1.1 hj).2
      omega
    by_cases hval : isValid ((bucketsOf work s r ax).getD j (emptyBB, 0)).1 = true
    · rw [if_pos hval]
      exact bucketsOf_cnt work s r ax j hj32
    · rw [if_neg hval]
      have h0 := bucketsOf_invalid_cnt work s r ax j hj32 hv
        (by simpa [isValid] using hval)
      rw [bucketsOf_cnt work s r ax j hj32] at h0
      omega
  rw [hmap, sum_cnt_range' work _ (32 - i) i]
  have : (work.filter (fun a =>
      i ≤ bIdx s r (centroidC a.bb ax) ∧
        bIdx s r (centroidC a.bb ax) < i + (32 - i))) =
      (work.filter (fun a => i ≤ bIdx s r (centroidC a.bb ax))) := by
    apply List.filter_congr
    intro a _
    simp only [decide_eq_decide]
    have := bIdx_lt s r (centroidC a.bb ax)
    omega
  rw [this]
  simp

/-! ### The adopted split has at least two items on each side -/

lemma foldl_preserve {α σ : Type _} (f : σ → α → σ) (P : σ → Prop) :
    ∀ (L : List α) (s : σ), P s → (∀ s a, a ∈ L → P s → P (f s a)) →
      P (L.foldl f s) := by
  intro L
  induction L with
  | nil => exact fun s h _ => h
  | cons a rest IH =>
    intro s hs hstep
    exact IH _ (hstep s a (List.mem_cons_self a rest) hs)
      (fun s' a' ha' => hstep s' a' (List.mem_cons_of_mem _ ha'))

lemma evalSplit_inv (work : List AABB) (bb : BBox) (ax : ℕ)
    (st : ℚ × Option (ℕ × ℕ)) (i : ℕ) (hi : i ∈ List.range' 1 31)
    (h : ∀ c, st.2 = some c →
      specAccept work bb c = true ∧ 1 ≤ c.2 ∧ c.2 ≤ 31) :
    ∀ c, (evalSplit
        (bucketsOf work (axisMin bb ax) (axisMax bb ax - axisMin bb ax) ax)
        ax st i).2 = some c →
      specAccept work bb c = true ∧ 1 ≤ c.2 ∧ c.2 ≤ 31 := by
  intro c hc
  unfold evalSplit at hc
  dsimp only at hc
  split at hc
  · exact h c hc
  · next hrej =>
    split at hc
    · simp only at hc
      cases hc
      have hi' := List.mem_range'_1.1 hi
      push_neg at hrej
      obtain ⟨h1, h2, h3, h4⟩ := hrej
      refine ⟨?_, by omega, by omega⟩
      simp only [specAccept]
      rw [decide_eq_true_eq]
      exact ⟨by omega, by omega, h3, h4⟩
    · exact h c hc

lemma searchAxis_inv (work : List AABB) (bb : BBox) (ax : ℕ)
    (st : ℚ × Option (ℕ × ℕ))
    (h : ∀ c, st.2 = some c →
      specAccept work bb c = true ∧ 1 ≤ c.2 ∧ c.2 ≤ 31) :
    ∀ c, (searchAxis work bb ax st).2 = some c →
      specAccept work bb c = true ∧ 1 ≤ c.2 ∧ c.2 ≤ 31 := by
  unfold searchAxis
  dsimp only
  split
  · exact h
  · exact foldl_preserve _
      (fun st => ∀ c, st.2 = some c →
        specAccept work bb c = true ∧ 1 ≤ c.2 ∧ c.2 ≤ 31)
      (List.range' 1 31) st h
      (fun st' i hi hst' => evalSplit_inv work bb ax st' i hi hst')

lemma bestSplit_some (work : List AABB) (bb : BBox) :
    ∀ c, (bestSplit work bb).2 = some c →
      specAccept work bb c = true ∧ 1 ≤ c.2 ∧ c.2 ≤ 31 := by
  unfold bestSplit
  apply searchAxis_inv
  apply searchAxis_inv
  apply searchAxis_inv
  intro c hc
  simp at hc

lemma filter_not_splitPred (work : List AABB) (bb : BBox) (ax i : ℕ) :
    work.filter (not ∘ splitPred bb ax i) =
      work.filter (fun a => decide (i ≤
        bIdx (axisMin bb ax) (axisMax bb ax - axisMin bb ax)
          (centroidC a.bb ax))) := by
  apply List.filter_congr
  intro a _
  simp only [Function.comp_apply]
  by_cases hx : bIdx (axisMin bb ax) (axisMax bb ax - axisMin bb ax)
      (centroidC a.bb ax) < i
  · rw [show splitPred bb ax i a = true by simp [splitPred, hx]]
    simp only [Bool.not_true]
    exact (decide_eq_false (by omega)).symm
  · rw [show splitPred bb ax i a = false by simp [splitPred, hx]]
    simp only [Bool.not_false]
    exact (decide_eq_true (by omega)).symm

lemma filter_splitPred (work : List AABB) (bb : BBox) (ax i : ℕ) :
    work.filter (splitPred bb ax i) =
      work.filter (fun a => decide (
        bIdx (axisMin bb ax) (axisMax bb ax - axisMin bb ax)
          (centroidC a.bb ax) < i)) := by
  apply List.filter_congr
  intro a _
  rfl

lemma splitSides (work : List AABB) (bb : BBox) (ax i : ℕ)
    (hi1 : 1 ≤ i) (hi2 : i ≤ 31)
    (hv : ∀ a ∈ work, a.bb.valid = true)
    (hacc : specAccept work bb (ax, i) = true) :
    2 ≤ (work.filter (splitPred bb ax i)).length ∧
    2 ≤ (work.filter (not ∘ splitPred bb ax i)).length := by
  unfold specAccept at hacc
  rw [decide_eq_true_eq] at hacc
  obtain ⟨hl, hr, _, _⟩ := hacc
  rw [leftAccum_cnt work _ _ _ i (by omega) hv] at hl
  rw [rightAccum_cnt work _ _ _ i (by omega) hv] at hr
  constructor
  · rw [filter_splitPred]
    exact hl
  · rw [filter_not_splitPred]
    exact hr

/-! ### C5: non-empty slices and leaves -/

lemma build_leaves (fuel : ℕ) :
    ∀ (work : List AABB) (depth : ℕ), work ≠ [] →
      (∀ a ∈ work, a.bb.valid = true) →
      leavesNonempty (buildTreeRecursive fuel work depth).1 = true ∧
      (∀ s ∈ buildSlices fuel work, 0 < s) := by
  induction fuel with
  | zero =>
    intro work depth hne _
    constructor
    · simp [buildTreeRecursive, leavesNonempty, hne]
    · intro s hs
      simp only [buildSlices, List.mem_singleton] at hs
      subst hs
      exact List.length_pos.2 hne
  | succ fuel IH =>
    intro work depth hne hv
    by_cases h4 : work.length ≤ 4
    · constructor
      · rw [buildTreeRecursive_small fuel work depth h4]
        simp [leavesNonempty, hne]
      · intro s hs
        simp only [buildSlices, if_pos h4, List.mem_cons, List.not_mem_nil,
          or_false] at hs
        subst hs
        exact List.length_pos.2 hne
    · rcases hbs : (bestSplit work (sliceBB work)).2 with _ | ⟨ax, i⟩
      · constructor
        · rw [buildTreeRecursive, if_neg h4, hbs]
          simp [leavesNonempty, hne]
        · intro s hs
          rw [buildSlices, if_neg h4, hbs] at hs
          simp only [List.mem_cons, List.not_mem_nil, or_false] at hs
          subst hs
          exact List.length_pos.2 hne
      · have hacc := bestSplit_some work (sliceBB work) (ax, i) hbs
        have hsides := splitSides work (sliceBB work) ax i hacc.2.1 hacc.2.2
          hv hacc.1
        have hp : work.partition (splitPred (sliceBB work) ax i) =
            (work.filter (splitPred (sliceBB work) ax i),
             work.filter (not ∘ splitPred (sliceBB work) ax i)) :=
          List.partition_eq_filter_filter _ _
        have hlne : work.filter (splitPred (sliceBB work) ax i) ≠ [] := by
          intro hcon
          rw [hcon] at hsides
          simp at hsides
        have hrne : work.filter (not ∘ splitPred (sliceBB work) ax i) ≠ [] := by
          intro hcon
          rw [hcon] at hsides
          simp at hsides
        have hlv : ∀ a ∈ work.filter (splitPred (sliceBB work) ax i),
            a.bb.valid = true :=
          fun a ha => hv a (List.mem_of_mem_filter ha)
        have hrv : ∀ a ∈ work.filter (not ∘ splitPred (sliceBB work) ax i),
            a.bb.valid = true :=
          fun a ha => hv a (List.mem_of_mem_filter ha)
        have IHl := IH _ (depth + 1) hlne hlv
        have IHr := IH _ (depth + 1) hrne hrv
        constructor
        · rw [buildTreeRecursive, if_neg h4, hbs]
          dsimp only
          rw [hp]
          simp only [leavesNonempty, Bool.and_eq_true]
          exact ⟨IHl.1, IHr.1⟩
        · intro s hs
          rw [buildSlices, if_neg h4, hbs] at hs
          dsimp only at hs
          rw [hp] at hs
          rcases List.mem_cons.1 hs with hs | hs
          · subst hs
            exact List.length_pos.2 hne
          · rcases List.mem_append.1 hs with hs | hs
            · exact IHl.2 s hs
            · exact IHr.2 s hs

/-- Fuel above the slice length does not affect the result of
`buildTreeRecursive`: the fuel-zero branch is unreachable once the fuel
exceeds the number of items, because an adopted split always leaves at
least 2 items on each side. -/
theorem buildTreeRecursive_fuel_irrelevant :
    ∀ (f₁ f₂ : ℕ) (work : List AABB) (depth : ℕ),
      (∀ a ∈ work, a.bb.valid = true) →
      work.length < f₁ → work.length < f₂ →
      buildTreeRecursive f₁ work depth = buildTreeRecursive f₂ work depth := by
  intro f₁
  induction f₁ with
  | zero => intro f₂ work depth _ h1 _; omega
  | succ f₁ IH =>
    intro f₂ work depth hv h1 h2
    cases f₂ with
    | zero => omega
    | succ f₂ =>
      by_cases h4 : work.length ≤ 4
      · rw [buildTreeRecursive_small f₁ work depth h4,
          buildTreeRecursive_small f₂ work depth h4]
      · rw [buildTreeRecursive, buildTreeRecursive, if_neg h4, if_neg h4]
        rcases hbs : (bestSplit work (sliceBB work)).2 with _ | ⟨ax, i⟩
        · rfl
        · have hacc := bestSplit_some work (sliceBB work) (ax, i) hbs
          have hsides := splitSides work (sliceBB work) ax i hacc.2.1
            hacc.2.2 hv hacc.1
          have hsum := filter_bool_compl work (splitPred (sliceBB work) ax i)
          have hcompl : work.filter (fun a => ! splitPred (sliceBB work) ax i a) =
              work.filter (not ∘ splitPred (sliceBB work) ax i) := rfl
          rw [hcompl] at hsum
          have hp : work.partition (splitPred (sliceBB work) ax i) =
              (work.filter (splitPred (sliceBB work) ax i),
               work.filter (not ∘ splitPred (sliceBB work) ax i)) :=
            List.partition_eq_filter_filter _ _
          dsimp only
          rw [hp]
          have hlv : ∀ a ∈ work.filter (splitPred (sliceBB work) ax i),
              a.bb.valid = true :=
            fun a ha => hv a (List.mem_of_mem_filter ha)
          have hrv : ∀ a ∈ work.filter (not ∘ splitPred (sliceBB work) ax i),
              a.bb.valid = true :=
            fun a ha => hv a (List.mem_of_mem_filter ha)
          rw [IH f₂ _ (depth + 1) hlv (by omega) (by omega),
            IH f₂ _ (depth + 1) hrv (by omega) (by omega)]

/-- C5 as frozen is violated on the empty mesh: the recursive builder is
invoked on the empty slice and the resulting single leaf holds no triangle
index. -/
theorem claim_C5_counterexample :
    (processFaces (fun v => v) [] []).work = [] ∧
    0 ∈ buildSlices ((processFaces (fun v => v) [] []).work.length + 1)
      (processFaces (fun v => v) [] []).work ∧
    leavesNonempty (bvhBuild (fun v => v) [] []).root = false := by
  refine ⟨rfl, ?_, rfl⟩
  simp [processFaces, processFacesAux, buildSlices]

/-- C5 amended: for every input mesh with at least one retained triangle,
the recursive builder is never invoked on a slice with zero items and every
leaf of the built tree holds at least one triangle index. -/
theorem claim_C5_nonemptySlices (u : V3 → V3) (vs : List ℚ) (fs : List ℕ)
    (h : (processFaces u vs fs).work ≠ []) :
    leavesNonempty (bvhBuild u vs fs).root = true ∧
    (∀ s ∈ buildSlices ((processFaces u vs fs).work.length + 1)
        (processFaces u vs fs).work, 0 < s) := by
  have hv : ∀ a ∈ (processFaces u vs fs).work, a.bb.valid = true := by
    intro a ha
    have := ((processFaces_inv u vs fs).2.1 a ha).2
    simpa [isValid] using this
  have hb := build_leaves ((processFaces u vs fs).work.length + 1)
    (processFaces u vs fs).work 0 h hv
  refine ⟨?_, hb.2⟩
  have hset : ∀ (t : BVHNode) (b : BBox),
      leavesNonempty (setBB t b) = leavesNonempty t := by
    intro t b
    cases t <;> rfl
  simp only [bvhBuild]
  rw [hset]
  exact hb.1

/-- Witness for the amended C5 at a concrete one-triangle mesh. -/
theorem claim_C5_witness :
    (processFaces (fun v => v) [0, 0, 0, 1, 0, 0, 0, 1, 0] [0, 1, 2]).work ≠ [] ∧
    leavesNonempty
      (bvhBuild (fun v => v) [0, 0, 0, 1, 0, 0, 0, 1, 0] [0, 1, 2]).root = true :=
  ⟨by with_unfolding_all decide,
   (claim_C5_nonemptySlices (fun v => v) [0, 0, 0, 1, 0, 0, 0, 1, 0] [0, 1, 2]
     (by with_unfolding_all decide)).1⟩

/-! ### C4: the split search equals its specification -/

lemma searchAxis_eq (work : List AABB) (bb : BBox) (ax : ℕ)
    (st : ℚ × Option (ℕ × ℕ)) :
    searchAxis work bb ax st =
      (([ax].filter
          (fun a => ¬ |axisMax bb a - axisMin bb a| < 1/10000)).flatMap
        (fun a => (List.range' 1 31).map (fun i => (a, i)))).foldl
        (fun st c => evalSplit (bucketsOf work (axisMin bb c.1)
          (axisMax bb c.1 - axisMin bb c.1) c.1) c.1 st c.2) st := by
  unfold searchAxis
  dsimp only
  split
  · next h =>
    rw [show ([ax].filter
        (fun a => ¬ |axisMax bb a - axisMin bb a| < 1/10000)) = [] from by
      simpa using h]
    rfl
  · next h =>
    rw [show ([ax].filter
        (fun a => ¬ |axisMax bb a - axisMin bb a| < 1/10000)) = [ax] from by
      simpa using not_lt.1 h]
    rw [show ([ax].flatMap
        (fun a => (List.range' 1 31).map (fun i => (a, i)))) =
        (List.range' 1 31).map (fun i => (ax, i)) from by simp]
    rw [List.foldl_map]

lemma bestSplit_eq_foldl (work : List AABB) (bb : BBox) :
    bestSplit work bb = (specCandidates bb).foldl
      (fun st c => evalSplit (bucketsOf work (axisMin bb c.1)
        (axisMax bb c.1 - axisMin bb c.1) c.1) c.1 st c.2)
      ((work.length : ℚ) * surf bb, none) := by
  unfold bestSplit
  rw [searchAxis_eq, searchAxis_eq, searchAxis_eq]
  rw [← List.foldl_append, ← List.foldl_append]
  congr 1
  unfold specCandidates
  rw [show ([0, 1, 2] : List ℕ) = [0] ++ [1] ++ [2] from rfl]
  rw [List.filter_append, List.filter_append, List.flatMap_append,
    List.flatMap_append, List.append_assoc]

lemma foldl_evalSplit_filter (work : List AABB) (bb : BBox) :
    ∀ (L : List (ℕ × ℕ)) (st : ℚ × Option (ℕ × ℕ)),
      L.foldl (fun st c => evalSplit (bucketsOf work (axisMin bb c.1)
        (axisMax bb c.1 - axisMin bb c.1) c.1) c.1 st c.2) st =
      (L.filter (specAccept work bb)).foldl
        (fun st c => if specCost work bb c < st.1 then
          (specCost work bb c, some c) else st) st := by
  intro L
  induction L with
  | nil => intro st; rfl
  | cons c rest IH =>
    intro st
    simp only [List.foldl_cons, List.filter_cons]
    by_cases hacc : specAccept work bb c = true
    · rw [if_pos hacc]
      simp only [List.foldl_cons]
      rw [← IH]
      have hconj :
          2 ≤ (leftAccum (bucketsOf work (axisMin bb c.1)
            (axisMax bb c.1 - axisMin bb c.1) c.1) c.2).2 ∧
          2 ≤ (rightAccum (bucketsOf work (axisMin bb c.1)
            (axisMax bb c.1 - axisMin bb c.1) c.1) c.2).2 ∧
          isValid (leftAccum (bucketsOf work (axisMin bb c.1)
            (axisMax bb c.1 - axisMin bb c.1) c.1) c.2).1 = true ∧
          isValid (rightAccum (bucketsOf work (axisMin bb c.1)
            (axisMax bb c.1 - axisMin bb c.1) c.1) c.2).1 = true := by
        simpa [specAccept, decide_eq_true_eq] using hacc
      have hstep :
          evalSplit (bucketsOf work (axisMin bb c.1)
            (axisMax bb c.1 - axisMin bb c.1) c.1) c.1 st c.2 =
          (if specCost work bb c < st.1 then
            (specCost work bb c, some c) else st) := by
        unfold evalSplit
        dsimp only
        split
        · next hrej =>
          exfalso
          rcases hrej with h | h | h | h
          · omega
          · omega
          · exact h hconj.2.2.1
          · exact h hconj.2.2.2
        · rfl
      rw [hstep]
    · rw [if_neg hacc]
      have hnconj :
          ¬ (2 ≤ (leftAccum (bucketsOf work (axisMin bb c.1)
            (axisMax bb c.1 - axisMin bb c.1) c.1) c.2).2 ∧
          2 ≤ (rightAccum (bucketsOf work (axisMin bb c.1)
            (axisMax bb c.1 - axisMin bb c.1) c.1) c.2).2 ∧
          isValid (leftAccum (bucketsOf work (axisMin bb c.1)
            (axisMax bb c.1 - axisMin bb c.1) c.1) c.2).1 = true ∧
          isValid (rightAccum (bucketsOf work (axisMin bb c.1)
            (axisMax bb c.1 - axisMin bb c.1) c.1) c.2).1 = true) := by
        simpa [specAccept, decide_eq_true_eq] using hacc
      have hstep :
          evalSplit (bucketsOf work (axisMin bb c.1)
            (axisMax bb c.1 - axisMin bb c.1) c.1) c.1 st c.2 = st := by
        unfold evalSplit
        dsimp only
        split
        · rfl
        · next hrej =>
          exfalso
          push_neg at hrej
          exact hnconj ⟨by omega, by omega, hrej.2.2.1, hrej.2.2.2⟩
      rw [hstep, IH]

lemma find?_congr' {α : Type _} (p q : α → Bool) :
    ∀ l : List α, (∀ x ∈ l, p x = q x) → l.find? p = l.find? q := by
  intro l
  induction l with
  | nil => intro _; rfl
  | cons a t IH =>
    intro h
    have ha := h a (List.mem_cons_self a t)
    by_cases hpa : p a = true
    · rw [List.find?_cons_of_pos t hpa, List.find?_cons_of_pos t (ha ▸ hpa)]
    · have hqa : ¬ q a = true := by rw [← ha]; exact hpa
      rw [List.find?_cons_of_neg t hpa, List.find?_cons_of_neg t hqa]
      exact IH (fun x hx => h x (List.mem_cons_of_mem _ hx))

lemma exists_min_all (cost : ℕ × ℕ → ℚ) :
    ∀ l : List (ℕ × ℕ), l ≠ [] → ∃ x ∈ l, ∀ y ∈ l, cost x ≤ cost y := by
  intro l
  induction l with
  | nil => intro h; exact absurd rfl h
  | cons a t IH =>
    intro _
    by_cases ht : t = []
    · subst ht
      refine ⟨a, List.mem_cons_self a [], ?_⟩
      intro y hy
      rcases List.mem_singleton.1 hy with rfl
      exact le_refl _
    · obtain ⟨x, hx, hmin⟩ := IH ht
      by_cases hax : cost a ≤ cost x
      · refine ⟨a, List.mem_cons_self a t, ?_⟩
        intro y hy
        rcases List.mem_cons.1 hy with rfl | hy
        · exact le_refl _
        · exact le_trans hax (hmin y hy)
      · refine ⟨x, List.mem_cons_of_mem _ hx, ?_⟩
        intro y hy
        rcases List.mem_cons.1 hy with rfl | hy
        · exact le_of_not_le hax
        · exact hmin y hy

lemma minFold_spec (cost : ℕ × ℕ → ℚ) :
    ∀ (A : List (ℕ × ℕ)) (m : ℚ) (b : Option (ℕ × ℕ)),
      (A.foldl (fun st c => if cost c < st.1 then (cost c, some c) else st)
        (m, b)).2 =
      (A.find? (fun c => decide (cost c < m) &&
        A.all (fun c₂ => decide (cost c ≤ cost c₂)))).or b := by
  intro A
  induction A with
  | nil => intro m b; rfl
  | cons c A' IH =>
    intro m b
    simp only [List.foldl_cons]
    by_cases hc : cost c < m
    · rw [if_pos hc, IH]
      by_cases h2 : A'.all (fun c₂ => decide (cost c ≤ cost c₂)) = true
      · have hhead : (fun x => decide (cost x < m) &&
            (c :: A').all (fun c₂ => decide (cost x ≤ cost c₂))) c = true := by
          simp only [List.all_cons]
          rw [decide_eq_true hc, decide_eq_true (le_refl (cost c)), h2]
          rfl
        rw [List.find?_cons_of_pos
          (p := fun x => decide (cost x < m) &&
            (c :: A').all fun c₂ => decide (cost x ≤ cost c₂)) _ hhead]
        have hnone : A'.find? (fun x => decide (cost x < cost c) &&
            A'.all (fun c₂ => decide (cost x ≤ cost c₂))) = none := by
          rw [List.find?_eq_none]
          intro x hx hcon
          rw [Bool.and_eq_true] at hcon
          have hlt := of_decide_eq_true hcon.1
          have hle := of_decide_eq_true (List.all_eq_true.1 h2 x hx)
          exact absurd hlt (not_lt.2 hle)
        rw [hnone]
        rfl
      · have h2' : A'.all (fun c₂ => decide (cost c ≤ cost c₂)) = false := by
          rcases Bool.eq_false_or_eq_true
            (A'.all (fun c₂ => decide (cost c ≤ cost c₂))) with h | h
          · exact absurd h h2
          · exact h
        have hy : ∃ y ∈ A', cost y < cost c := by
          by_contra hcon
          push_neg at hcon
          apply h2
          rw [List.all_eq_true]
          intro x hx
          exact decide_eq_true (hcon x hx)
        obtain ⟨y, hyA, hylt⟩ := hy
        have hhead : ¬ ((fun x => decide (cost x < m) &&
            (c :: A').all (fun c₂ => decide (cost x ≤ cost c₂))) c = true) := by
          simp only [List.all_cons, h2']
          simp
        rw [List.find?_cons_of_neg
          (p := fun x => decide (cost x < m) &&
            (c :: A').all fun c₂ => decide (cost x ≤ cost c₂)) _ hhead]
        have hcongr := find?_congr'
          (fun x => decide (cost x < cost c) &&
            A'.all (fun c₂ => decide (cost x ≤ cost c₂)))
          (fun x => decide (cost x < m) &&
            (c :: A').all (fun c₂ => decide (cost x ≤ cost c₂)))
          A' ?_
        · rw [← hcongr]
          obtain ⟨x₀, hx₀, hx₀min⟩ := exists_min_all cost A' (by
            intro hcon
            rw [hcon] at hyA
            exact (List.not_mem_nil y) hyA)
          have hPx₀ : (fun x => decide (cost x < cost c) &&
              A'.all (fun c₂ => decide (cost x ≤ cost c₂))) x₀ = true := by
            have hlt : cost x₀ < cost c := lt_of_le_of_lt (hx₀min y hyA) hylt
            simp only [decide_eq_true hlt, Bool.true_and]
            rw [List.all_eq_true]
            intro z hz
            exact decide_eq_true (hx₀min z hz)
          have hsome : (A'.find? (fun x => decide (cost x < cost c) &&
              A'.all (fun c₂ => decide (cost x ≤ cost c₂)))).isSome := by
            rw [List.find?_isSome]
            exact ⟨x₀, hx₀, hPx₀⟩
          obtain ⟨z, hz⟩ := Option.isSome_iff_exists.1 hsome
          rw [hz]
          rfl
        · intro x hx
          by_cases hall : A'.all (fun c₂ => decide (cost x ≤ cost c₂)) = true
          · have hxy : cost x ≤ cost y := of_decide_eq_true
              (List.all_eq_true.1 hall y hyA)
            have hxc : cost x < cost c := lt_of_le_of_lt hxy hylt
            have hxm : cost x < m := lt_trans hxc hc
            simp only [List.all_cons, hall, decide_eq_true hxc,
              decide_eq_true hxm, decide_eq_true (le_of_lt hxc)]
            rfl
          · have hall' : A'.all (fun c₂ => decide (cost x ≤ cost c₂)) = false := by
              rcases Bool.eq_false_or_eq_true
                (A'.all (fun c₂ => decide (cost x ≤ cost c₂))) with h | h
              · exact absurd h hall
              · exact h
            simp [List.all_cons, hall']
    · rw [if_neg hc, IH]
      have hhead : ¬ ((fun x => decide (cost x < m) &&
          (c :: A').all (fun c₂ => decide (cost x ≤ cost c₂))) c = true) := by
        have : decide (cost c < m) = false := decide_eq_false hc
        simp [this]
      rw [List.find?_cons_of_neg
        (p := fun x => decide (cost x < m) &&
          (c :: A').all fun c₂ => decide (cost x ≤ cost c₂)) _ hhead]
      have hcongr := find?_congr'
        (fun x => decide (cost x < m) &&
          A'.all (fun c₂ => decide (cost x ≤ cost c₂)))
        (fun x => decide (cost x < m) &&
          (c :: A').all (fun c₂ => decide (cost x ≤ cost c₂)))
        A' ?_
      · rw [← hcongr]
      · intro x hx
        by_cases hxm : cost x < m
        · have hxc : cost x ≤ cost c := le_trans (le_of_lt hxm) (not_lt.1 hc)
          simp only [List.all_cons, decide_eq_true hxm, decide_eq_true hxc]
          rfl
        · have : decide (cost x < m) = false := decide_eq_false hxm
          simp [this]

/-- C4: the bucketed surface-area-heuristic split search of
`buildTreeRecursive` is exactly its specification: items fall into 32
equal-width buckets per non-degenerate axis (axes with extent below `1e-4`
are skipped, embodied in `specCandidates`), a candidate is rejected when
either side has at most 1 item or an invalid box (`specAccept`), a
candidate costs `surf(left) * leftCount + surf(right) * rightCount`
(`specCost`), and the adopted split is the first candidate (lowest axis,
then lowest split index) of minimal cost among the accepted ones, adopted
only when that cost is strictly below the baseline
`itemCount * surf bb` (`specBestSplit`). -/
theorem claim_C4_sahSearch (work : List AABB) (bb : BBox) :
    (bestSplit work bb).2 = specBestSplit work bb := by
  rw [bestSplit_eq_foldl, foldl_evalSplit_filter]
  rw [minFold_spec (fun c => specCost work bb c) _
    ((work.length : ℚ) * surf bb) none]
  rw [Option.or_none]
  rfl

/-! ### Flattening: chunk sizes and word layout -/

lemma nodeCount_pos : ∀ t : BVHNode, 1 ≤ nodeCount t
  | .leaf _ _ => le_refl 1
  | .inner _ l r => by
      show 1 ≤ 1 + nodeCount l + nodeCount r
      omega

lemma preorderNodes_length (t : BVHNode) :
    (preorderNodes t).length = nodeCount t := by
  induction t with
  | leaf bb ts => rfl
  | inner bb l r IHl IHr =>
    simp [preorderNodes, nodeCount, IHl, IHr]
    omega

lemma leafSize_sum (t : BVHNode) :
    ((preorderNodes t).map leafSize).sum = (treeTris t).length := by
  induction t with
  | leaf bb ts => simp [preorderNodes, leafSize, treeTris]
  | inner bb l r IHl IHr =>
    simp [preorderNodes, leafSize, treeTris, IHl, IHr]

lemma cfRec_parts (t : BVHNode) :
    ∀ (myIdx base : ℕ),
      (createCFTreeRecursive t myIdx base).1 + 1 = myIdx + nodeCount t ∧
      (createCFTreeRecursive t myIdx base).2.1.length = 6 * nodeCount t ∧
      (createCFTreeRecursive t myIdx base).2.2.1.length = 4 * nodeCount t ∧
      (createCFTreeRecursive t myIdx base).2.2.2 =
        (treeTris t).map (· % 2 ^ 32) := by
  induction t with
  | leaf bb ts =>
    intro myIdx base
    simp [createCFTreeRecursive, nodeCount, limitsOf, treeTris]
  | inner bb l r IHl IHr =>
    intro myIdx base
    obtain ⟨hl1, hl2, hl3, hl4⟩ := IHl (myIdx + 1) base
    obtain ⟨hr1, hr2, hr3, hr4⟩ := IHr ((createCFTreeRecursive l (myIdx + 1) base).1 + 1)
      (base + (createCFTreeRecursive l (myIdx + 1) base).2.2.2.length)
    refine ⟨?_, ?_, ?_, ?_⟩
    · simp only [createCFTreeRecursive, nodeCount]
      omega
    · simp only [createCFTreeRecursive, nodeCount, List.length_append,
        limitsOf]
      simp only [List.length_cons, List.length_nil]
      omega
    · simp only [createCFTreeRecursive, nodeCount, List.length_append]
      simp only [List.length_cons, List.length_nil]
      omega
    · show (createCFTreeRecursive l (myIdx + 1) base).2.2.2 ++
          (createCFTreeRecursive r
            ((createCFTreeRecursive l (myIdx + 1) base).1 + 1)
            (base + (createCFTreeRecursive l (myIdx + 1) base).2.2.2.length)).2.2.2 =
          (treeTris (BVHNode.inner bb l r)).map (· % 2 ^ 32)
      rw [hr4, hl4]
      simp [treeTris]

lemma cfRec_limits (t : BVHNode) :
    ∀ (myIdx base : ℕ),
      (createCFTreeRecursive t myIdx base).2.1 =
        ((preorderNodes t).map (fun n => limitsOf (nodeBB n))).flatten := by
  induction t with
  | leaf bb ts =>
    intro myIdx base
    simp [createCFTreeRecursive, preorderNodes, nodeBB]
  | inner bb l r IHl IHr =>
    intro myIdx base
    simp only [createCFTreeRecursive, preorderNodes, List.map_cons,
      List.map_append, List.flatten_cons, List.flatten_append]
    rw [show nodeBB (BVHNode.inner bb l r) = bb from rfl]
    rw [IHl, IHr, List.append_assoc]

lemma lor_two_pow31 (len : ℕ) (h : len < 2 ^ 31) :
    Nat.lor (2 ^ 31) len = 2 ^ 31 + len := by
  show (2 ^ 31 ||| len) = 2 ^ 31 + len
  apply Nat.eq_of_testBit_eq
  intro i
  rw [Nat.testBit_lor]
  rcases lt_trichotomy i 31 with hi | hi | hi
  · rw [Nat.testBit_two_pow_add_gt hi, Nat.testBit_two_pow]
    rw [decide_eq_false (by omega)]
    simp
  · subst hi
    rw [Nat.testBit_two_pow_add_eq, Nat.testBit_lt_two_pow h,
      Nat.testBit_two_pow_self]
    rfl
  · have h32 : (2 : ℕ) ^ 32 ≤ 2 ^ i := Nat.pow_le_pow_right (by omega) (by omega)
    rw [Nat.testBit_lt_two_pow (x := 2 ^ 31 + len) (by
      have : (2 : ℕ) ^ 31 + len < 2 ^ 32 := by
        have h31 : (2 : ℕ) ^ 31 + 2 ^ 31 = 2 ^ 32 := by norm_num
        omega
      omega)]
    rw [Nat.testBit_two_pow, decide_eq_false (by omega),
      Nat.testBit_lt_two_pow (by
        have : (2 : ℕ) ^ 31 ≤ 2 ^ i := Nat.pow_le_pow_right (by omega) (by omega)
        omega)]
    rfl

lemma word0_leaf_decode (len : ℕ) (h : len < 2 ^ 31) :
    Nat.lor 0x80000000 (len % 2 ^ 32) = 2 ^ 31 + len ∧
    (Nat.lor 0x80000000 (len % 2 ^ 32)).testBit 31 = true ∧
    Nat.lor 0x80000000 (len % 2 ^ 32) % 2 ^ 31 = len := by
  have hm : len % 2 ^ 32 = len := Nat.mod_eq_of_lt (by
    have : (2 : ℕ) ^ 31 ≤ 2 ^ 32 := Nat.pow_le_pow_right (by omega) (by omega)
    omega)
  have hx : (0x80000000 : ℕ) = 2 ^ 31 := by norm_num
  rw [hm, hx, lor_two_pow31 len h]
  refine ⟨rfl, ?_, ?_⟩
  · rw [Nat.testBit_two_pow_add_eq, Nat.testBit_lt_two_pow h]
    rfl
  · rw [Nat.add_mod_left, Nat.mod_eq_of_lt h]

lemma word_shift (w0 w1 w2 w3 : ℕ) (rest : List ℕ) (k j : ℕ) :
    word ([w0, w1, w2, w3] ++ rest) (k + 1) j = word rest k j := by
  unfold word
  rw [List.getD_append_right _ _ _ _ (by simp; omega)]
  congr 1
  simp
  omega

lemma word_append (A B : List ℕ) (k j : ℕ) (h : 4 * k + j < A.length) :
    word (A ++ B) k j = word A k j := by
  unfold word
  exact List.getD_append _ _ _ _ h

lemma word_append_right (A B : List ℕ) (k k' j : ℕ) (hA : A.length = 4 * k) :
    word (A ++ B) (k + k') j = word B k' j := by
  unfold word
  rw [List.getD_append_right _ _ _ _ (by omega)]
  congr 1
  omega

lemma trisBefore_zero (t : BVHNode) : trisBefore t 0 = 0 := by
  simp [trisBefore]

lemma trisBefore_left (bb0 : BBox) (l r : BVHNode) (j : ℕ)
    (hj : j ≤ nodeCount l) :
    trisBefore (BVHNode.inner bb0 l r) (j + 1) = trisBefore l j := by
  unfold trisBefore
  rw [show preorderNodes (BVHNode.inner bb0 l r) =
    BVHNode.inner bb0 l r :: (preorderNodes l ++ preorderNodes r) from rfl]
  rw [List.take_succ_cons, List.map_cons, List.sum_cons]
  rw [List.take_append_of_le_length (by rw [preorderNodes_length]; exact hj)]
  simp [leafSize]

lemma trisBefore_right (bb0 : BBox) (l r : BVHNode) (j : ℕ) :
    trisBefore (BVHNode.inner bb0 l r) (1 + nodeCount l + j) =
      (treeTris l).length + trisBefore r j := by
  unfold trisBefore
  rw [show preorderNodes (BVHNode.inner bb0 l r) =
    BVHNode.inner bb0 l r :: (preorderNodes l ++ preorderNodes r) from rfl]
  rw [show 1 + nodeCount l + j = (nodeCount l + j) + 1 by omega]
  rw [List.take_succ_cons, List.map_cons, List.sum_cons]
  rw [show nodeCount l = (preorderNodes l).length from
    (preorderNodes_length l).symm]
  rw [List.take_append]
  rw [List.map_append, List.sum_append, leafSize_sum]
  simp [leafSize]

lemma preorder_getD_left (bb0 : BBox) (l r : BVHNode) (j : ℕ)
    (hj : j < nodeCount l) :
    (preorderNodes (BVHNode.inner bb0 l r)).getD (j + 1)
        (BVHNode.leaf emptyBB []) =
      (preorderNodes l).getD j (BVHNode.leaf emptyBB []) := by
  rw [show preorderNodes (BVHNode.inner bb0 l r) =
    BVHNode.inner bb0 l r :: (preorderNodes l ++ preorderNodes r) from rfl]
  rw [List.getD_cons_succ]
  exact List.getD_append _ _ _ _ (by rw [preorderNodes_length]; exact hj)

lemma preorder_getD_right (bb0 : BBox) (l r : BVHNode) (j : ℕ) :
    (preorderNodes (BVHNode.inner bb0 l r)).getD (1 + nodeCount l + j)
        (BVHNode.leaf emptyBB []) =
      (preorderNodes r).getD j (BVHNode.leaf emptyBB []) := by
  rw [show preorderNodes (BVHNode.inner bb0 l r) =
    BVHNode.inner bb0 l r :: (preorderNodes l ++ preorderNodes r) from rfl]
  rw [show 1 + nodeCount l + j = (nodeCount l + j) + 1 by omega]
  rw [List.getD_cons_succ]
  rw [List.getD_append_right _ _ _ _ (by rw [preorderNodes_length]; omega)]
  congr 1
  rw [preorderNodes_length]
  omega

/-- Per-node layout of the flattened descriptor array: node `k` of the
chunk produced for a subtree placed at flat index `myIdx` with triangle
base offset `base` has the words the source writes for it. -/
lemma cfRec_words (t : BVHNode) :
    ∀ (myIdx base k : ℕ), k < nodeCount t →
      (∀ bb ts, (preorderNodes t).getD k (BVHNode.leaf emptyBB []) =
          BVHNode.leaf bb ts →
        word (createCFTreeRecursive t myIdx base).2.2.1 k 0 =
          Nat.lor 0x80000000 (ts.length % 2 ^ 32) ∧
        word (createCFTreeRecursive t myIdx base).2.2.1 k 1 = 0 ∧
        word (createCFTreeRecursive t myIdx base).2.2.1 k 2 = 0 ∧
        word (createCFTreeRecursive t myIdx base).2.2.1 k 3 =
          (base + trisBefore t k) % 2 ^ 32) ∧
      (∀ bb l r, (preorderNodes t).getD k (BVHNode.leaf emptyBB []) =
          BVHNode.inner bb l r →
        word (createCFTreeRecursive t myIdx base).2.2.1 k 0 = 0 ∧
        word (createCFTreeRecursive t myIdx base).2.2.1 k 1 = myIdx + k + 1 ∧
        word (createCFTreeRecursive t myIdx base).2.2.1 k 2 =
          myIdx + k + 1 + nodeCount l ∧
        k + 1 + nodeCount l + nodeCount r ≤ nodeCount t) := by
  induction t with
  | leaf bb0 ts0 =>
    intro myIdx base k hk
    have hk0 : k = 0 := by
      have : nodeCount (BVHNode.leaf bb0 ts0) = 1 := rfl
      omega
    subst hk0
    constructor
    · intro bb ts heq
      have hts : ts = ts0 := by
        have : BVHNode.leaf bb0 ts0 = BVHNode.leaf bb ts := heq
        cases this
        rfl
      subst hts
      exact ⟨rfl, rfl, rfl, by
        rw [trisBefore_zero]
        simp [word, createCFTreeRecursive]⟩
    · intro bb l r heq
      exact absurd heq (by simp [preorderNodes])
  | inner bb0 l r IHl IHr =>
    intro myIdx base k hk
    have hchunk : (createCFTreeRecursive (BVHNode.inner bb0 l r) myIdx base).2.2.1 =
        [0, myIdx + 1, (createCFTreeRecursive l (myIdx + 1) base).1 + 1, 0] ++
          ((createCFTreeRecursive l (myIdx + 1) base).2.2.1 ++
           (createCFTreeRecursive r
             ((createCFTreeRecursive l (myIdx + 1) base).1 + 1)
             (base + (createCFTreeRecursive l (myIdx + 1) base).2.2.2.length)).2.2.1) := rfl
    have hl1 := (cfRec_parts l (myIdx + 1) base).1
    have hl3 := (cfRec_parts l (myIdx + 1) base).2.2.1
    have hl4 := (cfRec_parts l (myIdx + 1) base).2.2.2
    have hcnt : nodeCount (BVHNode.inner bb0 l r) =
        1 + nodeCount l + nodeCount r := rfl
    rcases Nat.lt_or_ge k 1 with hk1 | hk1
    · -- k = 0: the inner node itself
      have hk0 : k = 0 := by omega
      subst hk0
      constructor
      · intro bb ts heq
        exact absurd heq (by simp [preorderNodes])
      · intro bb l' r' heq
        have : BVHNode.inner bb0 l r = BVHNode.inner bb l' r' := heq
        cases this
        rw [hchunk]
        refine ⟨rfl, rfl, ?_, by omega⟩
        show (createCFTreeRecursive l (myIdx + 1) base).1 + 1 = myIdx + 0 + 1 + nodeCount l
        omega
    · rcases Nat.lt_or_ge k (1 + nodeCount l) with hkl | hkl
      · -- node k lies in the left chunk
        obtain ⟨j, rfl⟩ : ∃ j, k = j + 1 := ⟨k - 1, by omega⟩
        have hj : j < nodeCount l := by omega
        have hgd := preorder_getD_left bb0 l r j hj
        have hword : ∀ i, i < 4 →
            word (createCFTreeRecursive (BVHNode.inner bb0 l r) myIdx base).2.2.1 (j + 1) i =
            word (createCFTreeRecursive l (myIdx + 1) base).2.2.1 j i := by
          intro i hi4
          rw [hchunk, word_shift]
          exact word_append _ _ _ _ (by rw [hl3]; omega)
        have IH := IHl (myIdx + 1) base j hj
        constructor
        · intro bb ts heq
          rw [hgd] at heq
          obtain ⟨e0, e1, e2, e3⟩ := IH.1 bb ts heq
          refine ⟨?_, ?_, ?_, ?_⟩
          · rw [hword 0 (by omega), e0]
          · rw [hword 1 (by omega), e1]
          · rw [hword 2 (by omega), e2]
          · rw [hword 3 (by omega), e3, trisBefore_left bb0 l r j (by omega)]
        · intro bb l' r' heq
          rw [hgd] at heq
          obtain ⟨e0, e1, e2, e3⟩ := IH.2 bb l' r' heq
          refine ⟨?_, ?_, ?_, ?_⟩
          · rw [hword 0 (by omega), e0]
          · rw [hword 1 (by omega), e1]
            omega
          · rw [hword 2 (by omega), e2]
            omega
          · rw [hcnt]
            omega
      · -- node k lies in the right chunk
        obtain ⟨j, rfl⟩ : ∃ j, k = 1 + nodeCount l + j :=
          ⟨k - (1 + nodeCount l), by omega⟩
        have hj : j < nodeCount r := by
          rw [hcnt] at hk
          omega
        have hgd := preorder_getD_right bb0 l r j
        have hr3 := (cfRec_parts r
          ((createCFTreeRecursive l (myIdx + 1) base).1 + 1)
          (base + (createCFTreeRecursive l (myIdx + 1) base).2.2.2.length)).2.2.1
        have hword : ∀ i, word (createCFTreeRecursive (BVHNode.inner bb0 l r) myIdx base).2.2.1 (1 + nodeCount l + j) i =
            word (createCFTreeRecursive r
              ((createCFTreeRecursive l (myIdx + 1) base).1 + 1)
              (base + (createCFTreeRecursive l (myIdx + 1) base).2.2.2.length)).2.2.1 j i := by
          intro i
          rw [hchunk]
          rw [show 1 + nodeCount l + j = (nodeCount l + j) + 1 by omega]
          rw [word_shift]
          rw [word_append_right _ _ (nodeCount l) j i hl3]
        have IH := IHr ((createCFTreeRecursive l (myIdx + 1) base).1 + 1)
          (base + (createCFTreeRecursive l (myIdx + 1) base).2.2.2.length) j hj
        have hbase : base + (createCFTreeRecursive l (myIdx + 1) base).2.2.2.length =
            base + (treeTris l).length := by
          rw [hl4, List.length_map]
        constructor
        · intro bb ts heq
          rw [hgd] at heq
          obtain ⟨e0, e1, e2, e3⟩ := IH.1 bb ts heq
          refine ⟨?_, ?_, ?_, ?_⟩
          · rw [hword 0, e0]
          · rw [hword 1, e1]
          · rw [hword 2, e2]
          · rw [hword 3, e3, hbase, trisBefore_right bb0 l r j]
            congr 1
            omega
        · intro bb l' r' heq
          rw [hgd] at heq
          obtain ⟨e0, e1, e2, e3⟩ := IH.2 bb l' r' heq
          refine ⟨?_, ?_, ?_, ?_⟩
          · rw [hword 0, e0]
          · rw [hword 1, e1]
            omega
          · rw [hword 2, e2]
            omega
          · rw [hcnt]
            omega

lemma preorder_getD_zero (t : BVHNode) :
    (preorderNodes t).getD 0 (BVHNode.leaf emptyBB []) = t := by
  cases t <;> rfl

/-- The triangles of the leaf at pre-order position `k` occupy the
contiguous sub-range of `treeTris t` that starts at `trisBefore t k`. -/
lemma treeTris_at (t : BVHNode) :
    ∀ (k : ℕ) (bb : BBox) (ts : List ℕ), k < nodeCount t →
      (preorderNodes t).getD k (BVHNode.leaf emptyBB []) =
        BVHNode.leaf bb ts →
      trisBefore t k + ts.length ≤ (treeTris t).length ∧
      ((treeTris t).drop (trisBefore t k)).take ts.length = ts := by
  induction t with
  | leaf bb0 ts0 =>
    intro k bb ts hk heq
    have hk0 : k = 0 := by
      have : nodeCount (BVHNode.leaf bb0 ts0) = 1 := rfl
      omega
    subst hk0
    have hts : ts = ts0 := by
      have h' : BVHNode.leaf bb0 ts0 = BVHNode.leaf bb ts := heq
      cases h'
      rfl
    subst hts
    rw [trisBefore_zero]
    constructor
    · simp [treeTris]
    · show ((treeTris (BVHNode.leaf bb0 ts)).drop 0).take ts.length = ts
      rw [List.drop_zero]
      show ts.take ts.length = ts
      exact List.take_length ts
  | inner bb0 l r IHl IHr =>
    intro k bb ts hk heq
    have hcnt : nodeCount (BVHNode.inner bb0 l r) =
        1 + nodeCount l + nodeCount r := rfl
    have htt : treeTris (BVHNode.inner bb0 l r) = treeTris l ++ treeTris r := rfl
    rcases Nat.lt_or_ge k 1 with hk1 | hk1
    · have hk0 : k = 0 := by omega
      subst hk0
      rw [preorder_getD_zero] at heq
      exact absurd heq (by simp)
    · rcases Nat.lt_or_ge k (1 + nodeCount l) with hkl | hkl
      · obtain ⟨j, rfl⟩ : ∃ j, k = j + 1 := ⟨k - 1, by omega⟩
        have hj : j < nodeCount l := by omega
        rw [preorder_getD_left bb0 l r j hj] at heq
        obtain ⟨hb, he⟩ := IHl j bb ts hj heq
        rw [trisBefore_left bb0 l r j (by omega), htt]
        constructor
        · rw [List.length_append]
          omega
        · rw [List.drop_append_of_le_length (by omega)]
          rw [List.take_append_of_le_length (by
            rw [List.length_drop]
            omega)]
          exact he
      · obtain ⟨j, rfl⟩ : ∃ j, k = 1 + nodeCount l + j :=
          ⟨k - (1 + nodeCount l), by omega⟩
        have hj : j < nodeCount r := by
          rw [hcnt] at hk
          omega
        rw [preorder_getD_right bb0 l r j] at heq
        obtain ⟨hb, he⟩ := IHr j bb ts hj heq
        rw [trisBefore_right bb0 l r j, htt]
        constructor
        · rw [List.length_append]
          omega
        · rw [List.drop_append]
          exact he

lemma buildRec_tris_perm (fuel : ℕ) :
    ∀ (work : List AABB) (depth : ℕ),
      (treeTris (buildTreeRecursive fuel work depth).1).Perm
        (work.map (·.triangle)) := by
  induction fuel with
  | zero => intro work depth; exact List.Perm.refl _
  | succ fuel IH =>
    intro work depth
    by_cases h4 : work.length ≤ 4
    · rw [buildTreeRecursive_small fuel work depth h4]
      exact List.Perm.refl _
    · rcases hbs : (bestSplit work (sliceBB work)).2 with _ | ⟨ax, i⟩
      · rw [buildTreeRecursive, if_neg h4, hbs]
        exact List.Perm.refl _
      · rw [buildTreeRecursive, if_neg h4, hbs]
        dsimp only
        rw [List.partition_eq_filter_filter]
        show ((treeTris (buildTreeRecursive fuel
            (work.filter (splitPred (sliceBB work) ax i)) (depth + 1)).1) ++
          (treeTris (buildTreeRecursive fuel
            (work.filter (not ∘ splitPred (sliceBB work) ax i)) (depth + 1)).1)).Perm
          (work.map (·.triangle))
        have hl := IH (work.filter (splitPred (sliceBB work) ax i)) (depth + 1)
        have hr := IH (work.filter (not ∘ splitPred (sliceBB work) ax i)) (depth + 1)
        have happ := hl.append hr
        apply happ.trans
        rw [← List.map_append]
        exact List.Perm.map _ (List.filter_append_perm _ work)

lemma setBB_treeTris (t : BVHNode) (b : BBox) :
    treeTris (setBB t b) = treeTris t := by
  cases t <;> rfl

lemma pipeline_tril_perm (u : V3 → V3) (vs : List ℚ) (fs : List ℕ) :
    (treeTris (bvhBuild u vs fs).root).Perm
      (List.range (processFaces u vs fs).tris.length) := by
  show (treeTris (setBB (buildTreeRecursive
      ((processFaces u vs fs).work.length + 1)
      (processFaces u vs fs).work 0).1 (processFaces u vs fs).outer)).Perm _
  rw [setBB_treeTris]
  have h1 := buildRec_tris_perm ((processFaces u vs fs).work.length + 1)
    (processFaces u vs fs).work 0
  rw [(processFaces_inv u vs fs).1] at h1
  exact h1

lemma pipeline_counts (u : V3 → V3) (vs : List ℚ) (fs : List ℕ) :
    (treeTris (bvhBuild u vs fs).root).length =
      (processFaces u vs fs).tris.length ∧
    (∀ x ∈ treeTris (bvhBuild u vs fs).root,
      x < (processFaces u vs fs).tris.length) := by
  have hp := pipeline_tril_perm u vs fs
  constructor
  · rw [hp.length_eq, List.length_range]
  · intro x hx
    have := hp.mem_iff.1 hx
    exact List.mem_range.1 this

lemma pipeline_tril_eq (u : V3 → V3) (vs : List ℚ) (fs : List ℕ)
    (h : (processFaces u vs fs).tris.length < 2 ^ 31) :
    (bvhBuild u vs fs).tril = treeTris (bvhBuild u vs fs).root := by
  have htril : (bvhBuild u vs fs).tril =
      (treeTris (bvhBuild u vs fs).root).map (· % 2 ^ 32) :=
    (cfRec_parts (bvhBuild u vs fs).root 0 0).2.2.2
  rw [htril]
  have hid : ∀ x ∈ treeTris (bvhBuild u vs fs).root, x % 2 ^ 32 = x := by
    intro x hx
    have hxlt := (pipeline_counts u vs fs).2 x hx
    have : (2 : ℕ) ^ 31 ≤ 2 ^ 32 := Nat.pow_le_pow_right (by omega) (by omega)
    exact Nat.mod_eq_of_lt (by omega)
  calc (treeTris (bvhBuild u vs fs).root).map (· % 2 ^ 32)
      = (treeTris (bvhBuild u vs fs).root).map id := List.map_congr_left hid
    _ = treeTris (bvhBuild u vs fs).root := List.map_id _

/-- C1: flattening emits the nodes in one depth-first pre-order pass.  The
root sits at flat index 0; node `k` owns the 6 floats `limits[6k..6k+5]`
(the limits array is the concatenation, in pre-order, of the per-node
min/max values) and the 4 words `inds[4k..4k+3]`.  A leaf record has the
top bit of word0 set with its triangle count in the remaining bits, zero
words 1-2, and word3 is the starting offset of its triangles in
`triIndexList`.  An inner record has word0 = 0 and words 1-2 hold the flat
indices of the two children, both valid indices and strictly greater than
the parent index. -/
theorem claim_C1_flatLayout (u : V3 → V3) (vs : List ℚ) (fs : List ℕ)
    (h : (processFaces u vs fs).tris.length < 2 ^ 31) :
    (bvhBuild u vs fs).limits =
      ((preorderNodes (bvhBuild u vs fs).root).map
        (fun n => limitsOf (nodeBB n))).flatten ∧
    (bvhBuild u vs fs).limits.length = 6 * nodeCount (bvhBuild u vs fs).root ∧
    (bvhBuild u vs fs).inds.length = 4 * nodeCount (bvhBuild u vs fs).root ∧
    (preorderNodes (bvhBuild u vs fs).root).getD 0 (BVHNode.leaf emptyBB []) =
      (bvhBuild u vs fs).root ∧
    (∀ k, k < nodeCount (bvhBuild u vs fs).root →
      (∀ bb ts, (preorderNodes (bvhBuild u vs fs).root).getD k
          (BVHNode.leaf emptyBB []) = BVHNode.leaf bb ts →
        (word (bvhBuild u vs fs).inds k 0).testBit 31 = true ∧
        word (bvhBuild u vs fs).inds k 0 % 2 ^ 31 = ts.length ∧
        word (bvhBuild u vs fs).inds k 1 = 0 ∧
        word (bvhBuild u vs fs).inds k 2 = 0 ∧
        ((bvhBuild u vs fs).tril.drop
          (word (bvhBuild u vs fs).inds k 3)).take ts.length = ts) ∧
      (∀ bb l r, (preorderNodes (bvhBuild u vs fs).root).getD k
          (BVHNode.leaf emptyBB []) = BVHNode.inner bb l r →
        word (bvhBuild u vs fs).inds k 0 = 0 ∧
        k < word (bvhBuild u vs fs).inds k 1 ∧
        k < word (bvhBuild u vs fs).inds k 2 ∧
        word (bvhBuild u vs fs).inds k 1 <
          nodeCount (bvhBuild u vs fs).root ∧
        word (bvhBuild u vs fs).inds k 2 <
          nodeCount (bvhBuild u vs fs).root)) := by
  have hinds : (bvhBuild u vs fs).inds =
      (createCFTreeRecursive (bvhBuild u vs fs).root 0 0).2.2.1 := rfl
  have hlim : (bvhBuild u vs fs).limits =
      (createCFTreeRecursive (bvhBuild u vs fs).root 0 0).2.1 := rfl
  refine ⟨?_, ?_, ?_, preorder_getD_zero _, ?_⟩
  · rw [hlim, cfRec_limits]
  · rw [hlim, (cfRec_parts (bvhBuild u vs fs).root 0 0).2.1]
  · rw [hinds, (cfRec_parts (bvhBuild u vs fs).root 0 0).2.2.1]
  · intro k hk
    have hw := cfRec_words (bvhBuild u vs fs).root 0 0 k hk
    constructor
    · intro bb ts heq
      obtain ⟨e0, e1, e2, e3⟩ := hw.1 bb ts heq
      obtain ⟨hspan, htake⟩ := treeTris_at (bvhBuild u vs fs).root k bb ts hk heq
      have hlenroot := (pipeline_counts u vs fs).1
      have htslen : ts.length < 2 ^ 31 := by omega
      obtain ⟨hval, hbit, hmod⟩ := word0_leaf_decode ts.length htslen
      have hw3 : word (bvhBuild u vs fs).inds k 3 = trisBefore (bvhBuild u vs fs).root k := by
        rw [hinds, e3]
        have hb : trisBefore (bvhBuild u vs fs).root k <
            2 ^ 32 := by
          have : (2 : ℕ) ^ 31 ≤ 2 ^ 32 := Nat.pow_le_pow_right (by omega) (by omega)
          omega
        rw [Nat.zero_add]
        exact Nat.mod_eq_of_lt hb
      refine ⟨?_, ?_, ?_, ?_, ?_⟩
      · rw [hinds, e0, hbit]
      · rw [hinds, e0, hmod]
      · rw [hinds, e1]
      · rw [hinds, e2]
      · rw [hw3, pipeline_tril_eq u vs fs h, htake]
    · intro bb l r heq
      obtain ⟨e0, e1, e2, e3⟩ := hw.2 bb l r heq
      have hcl := nodeCount_pos l
      have hcr := nodeCount_pos r
      refine ⟨?_, ?_, ?_, ?_, ?_⟩
      · rw [hinds, e0]
      · rw [hinds, e1]
        omega
      · rw [hinds, e2]
        omega
      · rw [hinds, e1]
        omega
      · rw [hinds, e2]
        omega

/-- Witness for C1 at a concrete one-triangle mesh: the hypothesis holds
and the layout facts follow by applying the theorem. -/
theorem claim_C1_witness :
    (processFaces (fun v => v) [0, 0, 0, 1, 0, 0, 0, 1, 0]
      [0, 1, 2]).tris.length < 2 ^ 31 ∧
    (bvhBuild (fun v => v) [0, 0, 0, 1, 0, 0, 0, 1, 0] [0, 1, 2]).inds.length =
      4 * nodeCount (bvhBuild (fun v => v)
        [0, 0, 0, 1, 0, 0, 0, 1, 0] [0, 1, 2]).root :=
  ⟨by with_unfolding_all decide,
   (claim_C1_flatLayout (fun v => v) [0, 0, 0, 1, 0, 0, 0, 1, 0] [0, 1, 2]
     (by with_unfolding_all decide)).2.2.1⟩

/-- C9: in the flattened representation, the flat index of an inner node's
left child is exactly the parent's flat index plus one — the left subtree
is laid out immediately after its parent in the pre-order numbering. -/
theorem claim_C9_leftChildIndex (u : V3 → V3) (vs : List ℚ) (fs : List ℕ) :
    ∀ (k : ℕ) (bb : BBox) (l r : BVHNode),
      k < nodeCount (bvhBuild u vs fs).root →
      (preorderNodes (bvhBuild u vs fs).root).getD k
        (BVHNode.leaf emptyBB []) = BVHNode.inner bb l r →
      word (bvhBuild u vs fs).inds k 1 = k + 1 := by
  intro k bb l r hk heq
  have hw := (cfRec_words (bvhBuild u vs fs).root 0 0 k hk).2 bb l r heq
  show word (createCFTreeRecursive (bvhBuild u vs fs).root 0 0).2.2.1 k 1 = k + 1
  rw [hw.2.1]
  omega

/-- Witness for C9 at a concrete 5-triangle mesh whose root is an inner
node with two leaf children. -/
theorem claim_C9_witness :
    0 < nodeCount (bvhBuild (fun v => v)
      [0, 0, 0, 1, 0, 0, 0, 1, 0,
       1, 0, 0, 2, 0, 0, 1, 1, 0,
       2, 0, 0, 3, 0, 0, 2, 1, 0,
       100, 0, 0, 101, 0, 0, 100, 1, 0,
       101, 0, 0, 102, 0, 0, 101, 1, 0]
      [0, 1, 2, 3, 4, 5, 6, 7, 8, 9, 10, 11, 12, 13, 14]).root ∧
    (preorderNodes (bvhBuild (fun v => v)
      [0, 0, 0, 1, 0, 0, 0, 1, 0,
       1, 0, 0, 2, 0, 0, 1, 1, 0,
       2, 0, 0, 3, 0, 0, 2, 1, 0,
       100, 0, 0, 101, 0, 0, 100, 1, 0,
       101, 0, 0, 102, 0, 0, 101, 1, 0]
      [0, 1, 2, 3, 4, 5, 6, 7, 8, 9, 10, 11, 12, 13, 14]).root).getD 0
        (BVHNode.leaf emptyBB []) =
      BVHNode.inner ⟨true, ⟨0, 0, 0⟩, ⟨102, 1, 0⟩⟩
        (BVHNode.leaf ⟨true, ⟨0, 0, 0⟩, ⟨3, 1, 0⟩⟩ [0, 1, 2])
        (BVHNode.leaf ⟨true, ⟨100, 0, 0⟩, ⟨102, 1, 0⟩⟩ [3, 4]) ∧
    word (bvhBuild (fun v => v)
      [0, 0, 0, 1, 0, 0, 0, 1, 0,
       1, 0, 0, 2, 0, 0, 1, 1, 0,
       2, 0, 0, 3, 0, 0, 2, 1, 0,
       100, 0, 0, 101, 0, 0, 100, 1, 0,
       101, 0, 0, 102, 0, 0, 101, 1, 0]
      [0, 1, 2, 3, 4, 5, 6, 7, 8, 9, 10, 11, 12, 13, 14]).inds 0 1 = 0 + 1 :=
  ⟨by set_option maxRecDepth 100000 in with_unfolding_all decide,
   by set_option maxRecDepth 100000 in with_unfolding_all decide,
   claim_C9_leftChildIndex (fun v => v)
     [0, 0, 0, 1, 0, 0, 0, 1, 0,
      1, 0, 0, 2, 0, 0, 1, 1, 0,
      2, 0, 0, 3, 0, 0, 2, 1, 0,
      100, 0, 0, 101, 0, 0, 100, 1, 0,
      101, 0, 0, 102, 0, 0, 101, 1, 0]
     [0, 1, 2, 3, 4, 5, 6, 7, 8, 9, 10, 11, 12, 13, 14] 0
     ⟨true, ⟨0, 0, 0⟩, ⟨102, 1, 0⟩⟩
     (BVHNode.leaf ⟨true, ⟨0, 0, 0⟩, ⟨3, 1, 0⟩⟩ [0, 1, 2])
     (BVHNode.leaf ⟨true, ⟨100, 0, 0⟩, ⟨102, 1, 0⟩⟩ [3, 4])
     (by set_option maxRecDepth 100000 in with_unfolding_all decide)
     (by set_option maxRecDepth 100000 in with_unfolding_all decide)⟩

/-! ### C2: the flat walk visits every retained triangle exactly once -/

lemma walk_chunk (t : BVHNode) :
    ∀ (fuel myIdx base : ℕ) (preI postI preT postT : List ℕ),
      nodeCount t ≤ fuel →
      preI.length = 4 * myIdx →
      preT.length = base →
      base + (treeTris t).length < 2 ^ 31 →
      walkCF (preI ++ (createCFTreeRecursive t myIdx base).2.2.1 ++ postI)
             (preT ++ (createCFTreeRecursive t myIdx base).2.2.2 ++ postT)
             fuel myIdx =
        (createCFTreeRecursive t myIdx base).2.2.2 := by
  induction t with
  | leaf bb ts =>
    intro fuel myIdx base preI postI preT postT hfuel hpre hpreT hbound
    cases fuel with
    | zero =>
      exfalso
      have : nodeCount (BVHNode.leaf bb ts) = 1 := rfl
      omega
    | succ f =>
      have hts : ts.length < 2 ^ 31 := by
        have he : (treeTris (BVHNode.leaf bb ts)).length = ts.length := rfl
        omega
      obtain ⟨hval, hbit, hmod⟩ := word0_leaf_decode ts.length hts
      have hword : ∀ j, j < 4 →
          word (preI ++ (createCFTreeRecursive (BVHNode.leaf bb ts) myIdx base).2.2.1 ++ postI) myIdx j =
          word (createCFTreeRecursive (BVHNode.leaf bb ts) myIdx base).2.2.1 0 j := by
        intro j hj
        rw [List.append_assoc]
        have h1 := word_append_right preI
          ((createCFTreeRecursive (BVHNode.leaf bb ts) myIdx base).2.2.1 ++ postI)
          myIdx 0 j hpre
        rw [Nat.add_zero] at h1
        rw [h1]
        exact word_append _ _ 0 j (by
          rw [(cfRec_parts (BVHNode.leaf bb ts) myIdx base).2.2.1]
          simp [nodeCount]
          omega)
      have hw0 : word (createCFTreeRecursive (BVHNode.leaf bb ts) myIdx base).2.2.1 0 0 =
          Nat.lor 0x80000000 (ts.length % 2 ^ 32) := rfl
      have hw3 : word (createCFTreeRecursive (BVHNode.leaf bb ts) myIdx base).2.2.1 0 3 =
          base % 2 ^ 32 := rfl
      rw [walkCF]
      rw [hword 0 (by omega), hw0, hword 3 (by omega), hw3, hbit, hmod]
      rw [if_pos rfl]
      have hbase32 : base % 2 ^ 32 = base := Nat.mod_eq_of_lt (by
        have : (2 : ℕ) ^ 31 ≤ 2 ^ 32 := Nat.pow_le_pow_right (by omega) (by omega)
        omega)
      rw [hbase32]
      have htril : (createCFTreeRecursive (BVHNode.leaf bb ts) myIdx base).2.2.2 =
          ts.map (· % 2 ^ 32) := rfl
      rw [htril]
      rw [show base = preT.length + 0 by omega]
      rw [List.append_assoc, List.drop_append, List.drop_zero]
      rw [List.take_append_of_le_length (by simp)]
      rw [show ts.length = (ts.map (· % 2 ^ 32)).length from (List.length_map _ _).symm]
      exact List.take_length _
  | inner bb l r IHl IHr =>
    intro fuel myIdx base preI postI preT postT hfuel hpre hpreT hbound
    cases fuel with
    | zero =>
      exfalso
      have h1 := nodeCount_pos (BVHNode.inner bb l r)
      omega
    | succ f =>
      have hcnt : nodeCount (BVHNode.inner bb l r) =
          1 + nodeCount l + nodeCount r := rfl
      have htt : (treeTris (BVHNode.inner bb l r)).length =
          (treeTris l).length + (treeTris r).length := by
        show (treeTris l ++ treeTris r).length = _
        rw [List.length_append]
      have hl1 := (cfRec_parts l (myIdx + 1) base).1
      have hl3 := (cfRec_parts l (myIdx + 1) base).2.2.1
      have hl4 := (cfRec_parts l (myIdx + 1) base).2.2.2
      have hchunkI : (createCFTreeRecursive (BVHNode.inner bb l r) myIdx base).2.2.1 =
          [0, myIdx + 1, (createCFTreeRecursive l (myIdx + 1) base).1 + 1, 0] ++
            ((createCFTreeRecursive l (myIdx + 1) base).2.2.1 ++
             (createCFTreeRecursive r
               ((createCFTreeRecursive l (myIdx + 1) base).1 + 1)
               (base + (createCFTreeRecursive l (myIdx + 1) base).2.2.2.length)).2.2.1) := rfl
      have hchunkT : (createCFTreeRecursive (BVHNode.inner bb l r) myIdx base).2.2.2 =
          (createCFTreeRecursive l (myIdx + 1) base).2.2.2 ++
            (createCFTreeRecursive r
              ((createCFTreeRecursive l (myIdx + 1) base).1 + 1)
              (base + (createCFTreeRecursive l (myIdx + 1) base).2.2.2.length)).2.2.2 := rfl
      have hword : ∀ j, j < 4 →
          word (preI ++ (createCFTreeRecursive (BVHNode.inner bb l r) myIdx base).2.2.1 ++ postI) myIdx j =
          word (createCFTreeRecursive (BVHNode.inner bb l r) myIdx base).2.2.1 0 j := by
        intro j hj
        rw [List.append_assoc]
        have h1 := word_append_right preI
          ((createCFTreeRecursive (BVHNode.inner bb l r) myIdx base).2.2.1 ++ postI)
          myIdx 0 j hpre
        rw [Nat.add_zero] at h1
        rw [h1]
        exact word_append _ _ 0 j (by
          rw [(cfRec_parts (BVHNode.inner bb l r) myIdx base).2.2.1, hcnt]
          have h2 := nodeCount_pos l
          omega)
      have hw0 : word (createCFTreeRecursive (BVHNode.inner bb l r) myIdx base).2.2.1 0 0 = 0 := by
        rw [hchunkI]
        rfl
      have hw1 : word (createCFTreeRecursive (BVHNode.inner bb l r) myIdx base).2.2.1 0 1 =
          myIdx + 1 := by
        rw [hchunkI]
        rfl
      have hw2 : word (createCFTreeRecursive (BVHNode.inner bb l r) myIdx base).2.2.1 0 2 =
          (createCFTreeRecursive l (myIdx + 1) base).1 + 1 := by
        rw [hchunkI]
        rfl
      rw [walkCF]
      rw [hword 0 (by omega), hw0]
      rw [if_neg (by rw [Nat.zero_testBit]; exact Bool.false_ne_true)]
      rw [hword 1 (by omega), hw1, hword 2 (by omega), hw2]
      have hlenL : (createCFTreeRecursive l (myIdx + 1) base).2.2.2.length =
          (treeTris l).length := by
        rw [hl4, List.length_map]
      -- rearrange the global arrays around the left chunk
      have hglobI :
          preI ++ (createCFTreeRecursive (BVHNode.inner bb l r) myIdx base).2.2.1 ++ postI =
          (preI ++ [0, myIdx + 1, (createCFTreeRecursive l (myIdx + 1) base).1 + 1, 0]) ++
            (createCFTreeRecursive l (myIdx + 1) base).2.2.1 ++
            ((createCFTreeRecursive r
               ((createCFTreeRecursive l (myIdx + 1) base).1 + 1)
               (base + (createCFTreeRecursive l (myIdx + 1) base).2.2.2.length)).2.2.1 ++ postI) := by
        rw [hchunkI]
        simp [List.append_assoc]
      have hglobT :
          preT ++ (createCFTreeRecursive (BVHNode.inner bb l r) myIdx base).2.2.2 ++ postT =
          preT ++ (createCFTreeRecursive l (myIdx + 1) base).2.2.2 ++
            ((createCFTreeRecursive r
              ((createCFTreeRecursive l (myIdx + 1) base).1 + 1)
              (base + (createCFTreeRecursive l (myIdx + 1) base).2.2.2.length)).2.2.2 ++ postT) := by
        rw [hchunkT]
        simp [List.append_assoc]
      rw [hglobI, hglobT]
      have hLeft := IHl f (myIdx + 1) base
        (preI ++ [0, myIdx + 1, (createCFTreeRecursive l (myIdx + 1) base).1 + 1, 0])
        ((createCFTreeRecursive r
           ((createCFTreeRecursive l (myIdx + 1) base).1 + 1)
           (base + (createCFTreeRecursive l (myIdx + 1) base).2.2.2.length)).2.2.1 ++ postI)
        preT
        ((createCFTreeRecursive r
          ((createCFTreeRecursive l (myIdx + 1) base).1 + 1)
          (base + (createCFTreeRecursive l (myIdx + 1) base).2.2.2.length)).2.2.2 ++ postT)
        (by omega)
        (by rw [List.length_append, hpre]; simp; omega)
        hpreT
        (by omega)
      rw [hLeft]
      -- now the right walk: rearrange around the right chunk
      have hglobI2 :
          (preI ++ [0, myIdx + 1, (createCFTreeRecursive l (myIdx + 1) base).1 + 1, 0]) ++
            (createCFTreeRecursive l (myIdx + 1) base).2.2.1 ++
            ((createCFTreeRecursive r
               ((createCFTreeRecursive l (myIdx + 1) base).1 + 1)
               (base + (createCFTreeRecursive l (myIdx + 1) base).2.2.2.length)).2.2.1 ++ postI) =
          ((preI ++ [0, myIdx + 1, (createCFTreeRecursive l (myIdx + 1) base).1 + 1, 0]) ++
            (createCFTreeRecursive l (myIdx + 1) base).2.2.1) ++
            (createCFTreeRecursive r
               ((createCFTreeRecursive l (myIdx + 1) base).1 + 1)
               (base + (createCFTreeRecursive l (myIdx + 1) base).2.2.2.length)).2.2.1 ++ postI := by
        simp [List.append_assoc]
      have hglobT2 :
          preT ++ (createCFTreeRecursive l (myIdx + 1) base).2.2.2 ++
            ((createCFTreeRecursive r
              ((createCFTreeRecursive l (myIdx + 1) base).1 + 1)
              (base + (createCFTreeRecursive l (myIdx + 1) base).2.2.2.length)).2.2.2 ++ postT) =
          (preT ++ (createCFTreeRecursive l (myIdx + 1) base).2.2.2) ++
            (createCFTreeRecursive r
              ((createCFTreeRecursive l (myIdx + 1) base).1 + 1)
              (base + (createCFTreeRecursive l (myIdx + 1) base).2.2.2.length)).2.2.2 ++ postT := by
        simp [List.append_assoc]
      rw [hglobI2, hglobT2]
      have hRight := IHr f ((createCFTreeRecursive l (myIdx + 1) base).1 + 1)
        (base + (createCFTreeRecursive l (myIdx + 1) base).2.2.2.length)
        ((preI ++ [0, myIdx + 1, (createCFTreeRecursive l (myIdx + 1) base).1 + 1, 0]) ++
          (createCFTreeRecursive l (myIdx + 1) base).2.2.1)
        postI
        (preT ++ (createCFTreeRecursive l (myIdx + 1) base).2.2.2)
        postT
        (by omega)
        (by
          rw [List.length_append, List.length_append, hpre, hl3]
          simp
          omega)
        (by rw [List.length_append, hpreT])
        (by rw [hlenL]; omega)
      rw [hRight]
      exact hchunkT.symm

/-- C2: walking `indexesOrTrilists` from flat index 0 — following child
indices at inner entries and reading count/offset at leaf entries — yields
exactly `triIndexList`, and `triIndexList` is a permutation of the retained
triangle indices 0, ..., n-1: every retained triangle index occurs in
exactly one leaf sub-range, with no duplication and no omission. -/
theorem claim_C2_walkCoverage (u : V3 → V3) (vs : List ℚ) (fs : List ℕ)
    (h : (processFaces u vs fs).tris.length < 2 ^ 31) :
    walkCF (bvhBuild u vs fs).inds (bvhBuild u vs fs).tril
        (nodeCount (bvhBuild u vs fs).root) 0 = (bvhBuild u vs fs).tril ∧
    ((bvhBuild u vs fs).tril).Perm
      (List.range (processFaces u vs fs).tris.length) := by
  constructor
  · have hw := walk_chunk (bvhBuild u vs fs).root
      (nodeCount (bvhBuild u vs fs).root) 0 0 [] [] [] []
      (le_refl _) rfl rfl
      (by
        have := (pipeline_counts u vs fs).1
        omega)
    rw [List.append_nil, List.append_nil, List.nil_append, List.nil_append] at hw
    exact hw
  · rw [pipeline_tril_eq u vs fs h]
    exact pipeline_tril_perm u vs fs

/-- Witness for C2 at a concrete one-triangle mesh. -/
theorem claim_C2_witness :
    (processFaces (fun v => v) [0, 0, 0, 1, 0, 0, 0, 1, 0]
      [0, 1, 2]).tris.length < 2 ^ 31 ∧
    walkCF (bvhBuild (fun v => v) [0, 0, 0, 1, 0, 0, 0, 1, 0] [0, 1, 2]).inds
      (bvhBuild (fun v => v) [0, 0, 0, 1, 0, 0, 0, 1, 0] [0, 1, 2]).tril
      (nodeCount (bvhBuild (fun v => v)
        [0, 0, 0, 1, 0, 0, 0, 1, 0] [0, 1, 2]).root) 0 =
      (bvhBuild (fun v => v) [0, 0, 0, 1, 0, 0, 0, 1, 0] [0, 1, 2]).tril :=
  ⟨by with_unfolding_all decide,
   (claim_C2_walkCoverage (fun v => v) [0, 0, 0, 1, 0, 0, 0, 1, 0] [0, 1, 2]
     (by with_unfolding_all decide)).1⟩

/-! ### C6: bounding boxes are unions all the way down -/

lemma setBB_self (t : BVHNode) : setBB t (nodeBB t) = t := by
  cases t <;> rfl

lemma leaf_bbInv (tris : List Triangle) (work : List AABB)
    (halign : ∀ a ∈ work, (tris.getD a.triangle defaultTriangle).bb = a.bb) :
    bbInv tris (BVHNode.leaf (sliceBB work) (work.map (·.triangle))) := by
  show sliceBB work =
    ((work.map (·.triangle)).map
      (fun i => (tris.getD i defaultTriangle).bb)).foldl expandB emptyBB
  rw [List.map_map]
  have hm : work.map
      ((fun i => (tris.getD i defaultTriangle).bb) ∘ (·.triangle)) =
      work.map (·.bb) := by
    apply List.map_congr_left
    intro a ha
    exact halign a ha
  rw [hm, List.foldl_map]
  rfl

lemma buildRec_bbInv (fuel : ℕ) :
    ∀ (work : List AABB) (depth : ℕ) (tris : List Triangle),
      (∀ a ∈ work, (tris.getD a.triangle defaultTriangle).bb = a.bb) →
      bbInv tris (buildTreeRecursive fuel work depth).1 ∧
      nodeBB (buildTreeRecursive fuel work depth).1 = sliceBB work := by
  induction fuel with
  | zero =>
    intro work depth tris halign
    exact ⟨leaf_bbInv tris work halign, rfl⟩
  | succ fuel IH =>
    intro work depth tris halign
    by_cases h4 : work.length ≤ 4
    · rw [buildTreeRecursive_small fuel work depth h4]
      exact ⟨leaf_bbInv tris work halign, rfl⟩
    · rcases hbs : (bestSplit work (sliceBB work)).2 with _ | ⟨ax, i⟩
      · rw [buildTreeRecursive, if_neg h4, hbs]
        exact ⟨leaf_bbInv tris work halign, rfl⟩
      · rw [buildTreeRecursive, if_neg h4, hbs]
        dsimp only
        rw [List.partition_eq_filter_filter]
        have hal : ∀ a ∈ work.filter (splitPred (sliceBB work) ax i),
            (tris.getD a.triangle defaultTriangle).bb = a.bb :=
          fun a ha => halign a (List.mem_of_mem_filter ha)
        have har : ∀ a ∈ work.filter (not ∘ splitPred (sliceBB work) ax i),
            (tris.getD a.triangle defaultTriangle).bb = a.bb :=
          fun a ha => halign a (List.mem_of_mem_filter ha)
        have hL := IH (work.filter (splitPred (sliceBB work) ax i))
          (depth + 1) tris hal
        have hR := IH (work.filter (not ∘ splitPred (sliceBB work) ax i))
          (depth + 1) tris har
        refine ⟨⟨?_, hL.1, hR.1⟩, rfl⟩
        rw [hL.2, hR.2, ← sliceBB_append]
        exact (sliceBB_perm (List.filter_append_perm _ work)).symm

/-- C6: in the built tree every inner node's bounding box is the union of
its two children's boxes, and every leaf's bounding box is the union of the
boxes of its member triangles (exact rational arithmetic stands in for the
floating-point tolerance). -/
theorem claim_C6_bbUnion (u : V3 → V3) (vs : List ℚ) (fs : List ℕ) :
    bbInv (bvhBuild u vs fs).triangles (bvhBuild u vs fs).root := by
  have hpp := processFaces_inv u vs fs
  have halign : ∀ a ∈ (processFaces u vs fs).work,
      ((processFaces u vs fs).tris.getD a.triangle defaultTriangle).bb =
        a.bb :=
    fun a ha => (hpp.2.1 a ha).1
  have hb := buildRec_bbInv ((processFaces u vs fs).work.length + 1)
    (processFaces u vs fs).work 0 (processFaces u vs fs).tris halign
  show bbInv (processFaces u vs fs).tris
    (setBB (buildTreeRecursive ((processFaces u vs fs).work.length + 1)
      (processFaces u vs fs).work 0).1 (processFaces u vs fs).outer)
  rw [hpp.2.2, ← hb.2, setBB_self]
  exact hb.1

end BVH
